import Mathlib

/-!
Shallow embedding of the super-instruction selection engine of `substate-cli`
(Go package `sisel`), and proofs about it.

Conventions used throughout:

* Go machine integers are modelled as `Nat`/`Int`; where Go wraps
  (`uint64` arithmetic, `byte`/`uint32` conversions) the model applies the
  corresponding `% 2^w` explicitly.
* Go functions that recurse on a value that is not structurally decreasing
  are given an explicit fuel argument so that every definition is a plain
  structural recursion (hence executable and kernel-reducible); each call
  site passes a fuel that is provably sufficient.
* Triangle accesses out of range panic in Go; the model returns a default
  value instead.  All accesses performed by the embedded algorithms are in
  range, so model and source agree wherever the source returns.
-/

namespace Sisel

/-- The `vm.JUMPDEST` opcode (0x5b). -/
def JUMPDEST : Nat := 91

/-- `MAX_SI_LENGTH` from the source. -/
def MAX_SI_LENGTH : Nat := 10

/-- The reserved `INVALID` super-instruction id (0). -/
def INVALID : Nat := 0

/-- `triangleSize(rows)`: number of packed entries of a triangle matrix. -/
def triangleSize (rows : Nat) : Nat := ((rows + 1) * rows) / 2

/-- `Triangle[SuperInstructionId]`: a packed lower-triangular matrix of
super-instruction ids.  Position of `(i,j)` is `triangleSize i + j`. -/
structure Triangle where
  rows : Nat
  data : List Nat
deriving DecidableEq

/-- `NewTriangleMatrix`: rows plus zero-initialised packed storage
(the Go zero value of `SuperInstructionId` is `INVALID = 0`). -/
def NewTriangleMatrix (rows : Nat) : Triangle :=
  ⟨rows, List.replicate (triangleSize rows) 0⟩

/-- `Triangle.Get`.  The source panics for `j > i` or `i >= rows`; the model
returns `0`.  All reads performed below are in range. -/
def Triangle.get (t : Triangle) (i j : Nat) : Nat :=
  t.data.getD (triangleSize i + j) 0

/-- `Triangle.Set`.  Out-of-range writes (a panic in the source) are a no-op
here; all writes performed below are in range. -/
def Triangle.set (t : Triangle) (i j : Nat) (v : Nat) : Triangle :=
  ⟨t.rows, t.data.set (triangleSize i + j) v⟩

/-- `BlockStructure`: the triangle of interned interval ids plus the block's
execution frequency.  (The Go field `structure` is a Lean keyword, hence
`struct`.) -/
structure BlockStructure where
  struct : Triangle
  frequency : Int
deriving DecidableEq

/-- The `getInstruction(start, end)` closure of `GetSavingFor`, parametrised
by interval start and length `len = end - start`: length-`< 2` intervals map
to `INVALID`, others read the triangle at `(rows - len + 1, start)`.  The Go
row index `rows - len + 1` is computed on `int`; it is written `rows + 1 -
len` here so that truncated `Nat` subtraction agrees with it on every
in-range access (`len ≤ rows + 1`). -/
def getInstruction (t : Triangle) (start len : Nat) : Nat :=
  if len < 2 then INVALID else t.get (t.rows + 1 - len) start

/-- Phase A of `GetSavingFor`: the `is_affected` triangle.  The Go code fills
the triangle for increasing interval lengths; `affectedB fuel start len`
computes the recurrence defining cell `[start, start+len)`, with `fuel`
bounding the recursion depth (callers pass `fuel = len`, which is exactly
sufficient).  Base `len = 2`: the interval's id is in the set.  Step:
`set ∋ id(start,len) || affected(start, len-1) || affected(start+1, len-1)`. -/
def affectedB (t : Triangle) (S : Finset Nat) : Nat → Nat → Nat → Bool
  | 0, _, _ => false
  | f + 1, start, len =>
    if len < 2 then false
    else if len = 2 then decide (getInstruction t start 2 ∈ S)
    else decide (getInstruction t start len ∈ S)
      || affectedB t S f start (len - 1)
      || affectedB t S f (start + 1) (len - 1)

/-- `isAffected(start, start+len)` with the canonical (sufficient) fuel. -/
def affectedF (t : Triangle) (S : Finset Nat) (start len : Nat) : Bool :=
  affectedB t S len start len

/-- Phase B of `GetSavingFor`: the `savings` triangle.  Cell `[start,
start+len)` is: for `len < 2` the value `0`; for `len = 2` the value `1` if
matched else `0`; for longer intervals `0` if the interval is not affected
(the Go loop `continue`s, leaving the zero value), otherwise the maximum of
`len - 1` (if the whole interval is a matched instruction, else `0`) and all
split sums `saving(start, start+j) + saving(start+j, start+len)` for
`j = 1 .. len-1`.  `fuel` as in `affectedB`. -/
def savingB (t : Triangle) (S : Finset Nat) : Nat → Nat → Nat → Nat
  | 0, _, _ => 0
  | f + 1, start, len =>
    if len < 2 then 0
    else if len = 2 then (if getInstruction t start 2 ∈ S then 1 else 0)
    else if affectedF t S start len = false then 0
    else
      (List.range (len - 1)).foldl
        (fun acc k =>
          Nat.max acc (savingB t S f start (k + 1) + savingB t S f (start + k + 1) (len - (k + 1))))
        (if getInstruction t start len ∈ S then len - 1 else 0)

/-- `getSaving(start, start+len)` with the canonical fuel. -/
def savingF (t : Triangle) (S : Finset Nat) (start len : Nat) : Nat :=
  savingB t S len start len

/-- `BlockStructure.GetSavingFor`: early-exits with `0` if the whole block
interval `[0, rows+1)` is unaffected, otherwise runs the savings DP and
returns the whole-block saving. -/
def GetSavingFor (b : BlockStructure) (S : Finset Nat) : Nat :=
  if affectedF b.struct S 0 (b.struct.rows + 1) = false then 0
  else savingF b.struct S 0 (b.struct.rows + 1)

/-! ### Immutable instruction sets (`instruction_set.go`)

An `InstructionSet` is a packed byte string holding the sorted ids, four
little-endian bytes per id.  Bytes are modelled as `Nat` values `< 256`
(all constructors below only ever produce such bytes). -/

/-- The four little-endian bytes of `uint32(id)` (`byte(id)`, `byte(id>>8)`,
`byte(id>>16)`, `byte(id>>24)`). -/
def toLEBytes (id : Nat) : List Nat :=
  [id % 256, id / 256 % 256, id / 65536 % 256, id / 16777216 % 256]

/-- `InstructionSet`: the encoded byte string (Go field `encoded`). -/
structure InstructionSet where
  encoded : List Nat
deriving DecidableEq

/-- The empty instruction set (Go zero value `InstructionSet{}`). -/
def emptySet : InstructionSet := ⟨[]⟩

/-- `InstructionSet.Size`. -/
def InstructionSet.Size (s : InstructionSet) : Nat := s.encoded.length / 4

/-- `InstructionSet.Empty`. -/
def InstructionSet.Empty (s : InstructionSet) : Bool := s.encoded.length == 0

/-- `InstructionSet.At(pos)`: recombine four little-endian bytes.  The Go
bitwise-or of shifted bytes equals this sum for byte values `< 256`. -/
def InstructionSet.At (s : InstructionSet) (pos : Nat) : Nat :=
  s.encoded.getD (4 * pos) 0
    + s.encoded.getD (4 * pos + 1) 0 * 256
    + s.encoded.getD (4 * pos + 2) 0 * 65536
    + s.encoded.getD (4 * pos + 3) 0 * 16777216

/-- The decoded id list of a set: `At 0, …, At (Size-1)` (the sequence the
Go loops iterate over). -/
def idsOf (s : InstructionSet) : List Nat := (List.range s.Size).map s.At

/-- `InstructionSet.Contains`: linear scan over the positions. -/
def InstructionSet.Contains (s : InstructionSet) (si : Nat) : Bool :=
  (List.range s.Size).any (fun i => s.At i == si)

/-- `MakeSingletonSet`. -/
def MakeSingletonSet (si : Nat) : InstructionSet := ⟨toLEBytes si⟩

/-- The duplicate-dropping loop of `MakeSet`: emit `cur` iff `cur ≠ last`,
then continue with `last = cur`. -/
def dedupSorted : Nat → List Nat → List Nat
  | _, [] => []
  | last, cur :: rest =>
    if cur ≠ last then cur :: dedupSorted cur rest else dedupSorted cur rest

/-- `MakeSet`: empty input yields the empty set; otherwise sort ascending,
drop adjacent duplicates (seeding `last` with `sorted[0] + 1`, which never
equals `sorted[0]`), and pack each id as four little-endian bytes. -/
def MakeSet (list : List Nat) : InstructionSet :=
  if list.isEmpty then ⟨[]⟩
  else
    let sorted := List.insertionSort (· ≤ ·) list
    ⟨(dedupSorted (sorted.headD 0 + 1) sorted).flatMap toLEBytes⟩

/-- The two-pointer merge of `Union`, on the decoded id sequences, with an
explicit fuel (callers pass the sum of the lengths, which is sufficient). -/
def unionMerge : Nat → List Nat → List Nat → List Nat
  | 0, a, b => a ++ b
  | _ + 1, [], b => b
  | _ + 1, x :: xs, [] => x :: xs
  | f + 1, x :: xs, y :: ys =>
    if x < y then x :: unionMerge f xs (y :: ys)
    else if x = y then x :: unionMerge f xs ys
    else y :: unionMerge f (x :: xs) ys

/-- `Union`: returns the other operand if one is empty, else merges the two
sorted id sequences and re-encodes. -/
def Union (a b : InstructionSet) : InstructionSet :=
  if a.encoded.length == 0 then b
  else if b.encoded.length == 0 then a
  else ⟨(unionMerge (a.Size + b.Size) (idsOf a) (idsOf b)).flatMap toLEBytes⟩

/-- The two-pointer intersection loop of `Intersect`, fuelled like
`unionMerge`. -/
def intersectMerge : Nat → List Nat → List Nat → List Nat
  | 0, _, _ => []
  | _ + 1, [], _ => []
  | _ + 1, _ :: _, [] => []
  | f + 1, x :: xs, y :: ys =>
    if x < y then intersectMerge f xs (y :: ys)
    else if y < x then intersectMerge f (x :: xs) ys
    else x :: intersectMerge f xs ys

/-- `Intersect`. -/
def Intersect (a b : InstructionSet) : InstructionSet :=
  if a.encoded.length == 0 then a
  else if b.encoded.length == 0 then b
  else ⟨(intersectMerge (a.Size + b.Size) (idsOf a) (idsOf b)).flatMap toLEBytes⟩

/-- The two-pointer difference loop of `Difference` (elements of the first
sequence not present in the second), fuelled like `unionMerge`. -/
def diffMerge : Nat → List Nat → List Nat → List Nat
  | 0, a, _ => a
  | _ + 1, [], _ => []
  | _ + 1, x :: xs, [] => x :: xs
  | f + 1, x :: xs, y :: ys =>
    if x < y then x :: diffMerge f xs (y :: ys)
    else if y < x then diffMerge f (x :: xs) ys
    else diffMerge f xs ys

/-- `Difference`. -/
def Difference (a b : InstructionSet) : InstructionSet :=
  if a.encoded.length == 0 then a
  else if b.encoded.length == 0 then a
  else ⟨(diffMerge (a.Size + b.Size) (idsOf a) (idsOf b)).flatMap toLEBytes⟩

/-- `InstructionSet.Add`. -/
def InstructionSet.Add (s : InstructionSet) (si : Nat) : InstructionSet :=
  if s.Contains si then s else Union s (MakeSingletonSet si)

/-- `InstructionSet.Remove`. -/
def InstructionSet.Remove (s : InstructionSet) (si : Nat) : InstructionSet :=
  if s.Contains si then Difference s (MakeSingletonSet si) else s

/-- `decodeInstructionSet`: fails (returns `none`, a Go `error`) when the
byte length is not a multiple of 4, otherwise yields the key set of the
resulting Go map (keys are the decoded ids). -/
def decodeInstructionSet (encoded : List Nat) : Option (Finset Nat) :=
  if encoded.length % 4 ≠ 0 then none
  else some ((List.range (encoded.length / 4)).map (InstructionSet.At ⟨encoded⟩)).toFinset

/-- Ascending key list of a Go `map` modelled as a `Finset` (the map's
iteration order is unspecified; `encodeInstructionSet` sorts the keys, so
only the key set matters).  Implemented as a `Quot.lift` of insertion sort
so that it is kernel-reducible. -/
def finsetSortedList (s : Finset Nat) : List Nat :=
  Quot.lift (fun l => List.insertionSort (· ≤ ·) l)
    (fun a b (h : a.Perm b) =>
      List.eq_of_perm_of_sorted
        ((List.perm_insertionSort _ a).trans (h.trans (List.perm_insertionSort _ b).symm))
        (List.sorted_insertionSort _ a) (List.sorted_insertionSort _ b))
    s.val

/-- `encodeInstructionSet`: sort the map's keys ascending and pack each as
four little-endian bytes. -/
def encodeInstructionSet (set : Finset Nat) : List Nat :=
  (finsetSortedList set).flatMap toLEBytes

/-- `InstructionSet.AsMap`: decode the encoding into a membership set.  The
Go code panics when decoding fails; the model returns the empty set in that
(never reached, see the validity invariant) case. -/
def InstructionSet.AsMap (s : InstructionSet) : Finset Nat :=
  (decodeInstructionSet s.encoded).getD ∅

/-- `InstructionSet.String`: `"{id id … id}"`. -/
def InstructionSet.toStr (s : InstructionSet) : String :=
  "\x7b" ++ String.intercalate " " ((idsOf s).map Nat.repr) ++ "\x7d"

/-- The canonical-encoding invariant of `InstructionSet`: every stored
value is a byte, the byte length is a multiple of four, and the decoded ids
are strictly increasing (sorted and duplicate-free). -/
def InstructionSet.valid (s : InstructionSet) : Prop :=
  (∀ b ∈ s.encoded, b < 256) ∧ s.encoded.length % 4 = 0 ∧ (idsOf s).Pairwise (· < ·)

/-! ### Super-instruction index and block-structure construction
(`si.go`, relevant parts of `part_001`) -/

/-- `NewSuperInstruction`: a super instruction is its opcode byte sequence
(value equality). -/
def NewSuperInstruction (code : List Nat) : List Nat := code

/-- `SuperInstructionIndex.Add` on the index's `list` field (the Go `index`
hash map is the inverse of `list`; lookup is modelled by list search).  On
first use the list is seeded with the empty instruction at id `0`.  Returns
the updated list and the id. -/
def siIndexAdd (idx : List (List Nat)) (si : List Nat) : List (List Nat) × Nat :=
  let l := if idx.isEmpty then [[]] else idx
  match l.indexOf? si with
  | some k => (l, k)
  | none => (l ++ [si], l.length)

/-- `BlockInfo` (`db.go`): opcode sequence plus frequency. -/
structure BlockInfo where
  block : List Nat
  frequency : Int
deriving DecidableEq

/-- The interval enumeration of `forEachSuperInstruction`: all `[i, j)` with
`2 ≤ j - i ≤ MAX_SI_LENGTH`, `j ≤ len`, in the loop order of the source;
intervals starting at `0` are skipped when the block starts with
`JUMPDEST`. -/
def siIntervals (block : List Nat) : List (Nat × Nat) :=
  (List.range (block.length + 1)).flatMap (fun i =>
    if i = 0 ∧ block.headD 0 = JUMPDEST then []
    else (List.range' (i + 2) (min block.length (i + MAX_SI_LENGTH) + 1 - (i + 2))).map
      (fun j => (i, j)))

/-- Wrapping `uint64` accumulation of per-id frequencies (`frequency[id] +=
uint64(block.frequency)`), growing the vector as needed. -/
def bumpFreq (freqs : List Nat) (id : Nat) (f : Int) : List Nat :=
  let fr := if freqs.length ≤ id then freqs ++ List.replicate (id + 1 - freqs.length) 0 else freqs
  fr.set id ((fr.getD id 0 + ((f % (2 ^ 64)).toNat % 2 ^ 64)) % 2 ^ 64)

/-- One step of the `forEachSuperInstruction` callback in `CreateSiIndex`:
intern the interval's opcodes, record the id in the triangle at
`(rows - (j-i) + 1, i)` (written `rows + 1 - (j-i)`, cf. `getInstruction`),
and accumulate the block's frequency for the id. -/
def siStep (block : List Nat) (f : Int) (rows : Nat) :
    (List (List Nat) × List Nat × Triangle) → Nat × Nat → List (List Nat) × List Nat × Triangle
  | (idx, freqs, tri), (i, j) =>
    let si := NewSuperInstruction ((block.drop i).take (j - i))
    let r := siIndexAdd idx si
    (r.1, bumpFreq freqs r.2 f, tri.set (rows + 1 - (j - i)) i r.2)

/-- The per-block body of `CreateSiIndex`: build the block's triangle while
extending the index and the frequency vector. -/
def buildStructure (idx : List (List Nat)) (freqs : List Nat) (b : BlockInfo) :
    List (List Nat) × List Nat × BlockStructure :=
  let rows := b.block.length - 1
  let r := (siIntervals b.block).foldl (siStep b.block b.frequency rows)
    (idx, freqs, NewTriangleMatrix rows)
  (r.1, r.2.1, ⟨r.2.2, b.frequency⟩)

/-- `CreateSiIndex`: fold `buildStructure` over all blocks. -/
def CreateSiIndex (blocks : List BlockInfo) :
    List (List Nat) × List Nat × List BlockStructure :=
  blocks.foldl
    (fun acc b =>
      let r := buildStructure acc.1 acc.2.1 b
      (r.1, r.2.1, acc.2.2 ++ [r.2.2]))
    ([], [], [])

/-! ### Parallel saving harness and selection driver (`sisel.go`) -/

/-- What each worker emits for a block: `int64(saving) * frequency`. -/
def blockOutput (iset : InstructionSet) (b : BlockStructure) : Int :=
  (GetSavingFor b iset.AsMap : Int) * b.frequency

/-- `getSavings(blocks, set, workers)`: the workers jointly process every
block exactly once and the aggregator sums all `len(blocks)` outputs, so the
result is the sum of the per-block outputs; the `workers` count (≥ 1) does
not enter the value. -/
def getSavings (blocks : List BlockStructure) (iset : InstructionSet) (workers : Nat) : Int :=
  let _ := workers
  (blocks.map (blockOutput iset)).sum

/-- `InstructionInfo`: candidate id plus its `uint64` raw saving. -/
structure InstructionInfo where
  instruction : Nat
  savings : Nat
deriving DecidableEq

instance : Inhabited InstructionInfo := ⟨⟨0, 0⟩⟩

/-- `SelectionProblem`. -/
structure SelectionProblem where
  instructions : List InstructionInfo
  instruction_index : List (List Nat)
  block_structure : List BlockStructure
  budget : Nat
deriving DecidableEq

/-- The instruction list built in `siselAction`: for every id `i` below the
frequency-vector length, raw saving `frequencies[i] * uint64(Size(i)-1)`
(with `uint64` wrap-around; for the empty instruction at id 0 the factor is
`uint64(-1) = 2^64 - 1`, and its frequency is always 0). -/
def buildInstructions (idx : List (List Nat)) (freqs : List Nat) : List InstructionInfo :=
  (List.range freqs.length).map (fun i =>
    ⟨i, freqs.getD i 0 *
      (if (idx.getD i []).length = 0 then 2 ^ 64 - 1 else (idx.getD i []).length - 1) % 2 ^ 64⟩)

/-- `Candidate`. -/
structure Candidate where
  instruction_set : InstructionSet
  minimum_potential : Int
  maximum_potential : Int
deriving DecidableEq

instance : Inhabited Candidate := ⟨⟨⟨[]⟩, 0, 0⟩⟩

/-- `WorkList.Less`: max-heap order, first by `minimum_potential`
descending, tie-broken by `maximum_potential` descending. -/
def candLess (a b : Candidate) : Bool :=
  if b.minimum_potential < a.minimum_potential then true
  else if a.minimum_potential < b.minimum_potential then false
  else decide (b.maximum_potential < a.maximum_potential)

/-- Swap two positions of the worklist slice. -/
def lswap (l : List Candidate) (i j : Nat) : List Candidate :=
  match l.get? i, l.get? j with
  | some a, some b => (l.set i b).set j a
  | _, _ => l

/-- `container/heap`'s `up` (sift-up) with the `WorkList` ordering, fuelled
(`fuel = j + 1` suffices since the index shrinks every step). -/
def siftUp : Nat → List Candidate → Nat → List Candidate
  | 0, l, _ => l
  | f + 1, l, j =>
    if j = 0 then l
    else
      let i := (j - 1) / 2
      if candLess (l.getD j default) (l.getD i default) then siftUp f (lswap l i j) i else l

/-- `container/heap`'s `down` (sift-down) restricted to the first `n`
entries, fuelled (`fuel = n` suffices since the index grows every step). -/
def siftDown : Nat → List Candidate → Nat → Nat → List Candidate
  | 0, l, _, _ => l
  | f + 1, l, i, n =>
    let j1 := 2 * i + 1
    if n ≤ j1 then l
    else
      let j := if j1 + 1 < n ∧ candLess (l.getD (j1 + 1) default) (l.getD j1 default)
        then j1 + 1 else j1
      if candLess (l.getD j default) (l.getD i default) then siftDown f (lswap l i j) j n else l

/-- `heap.Push`: append, then sift the new last element up. -/
def heapPush (wl : List Candidate) (c : Candidate) : List Candidate :=
  siftUp (wl.length + 1) (wl ++ [c]) wl.length

/-- `heap.Pop`: swap the root with the last element, sift the new root down
over the first `n` entries, then remove and return the last element. -/
def heapPop (wl : List Candidate) : Candidate × List Candidate :=
  let n := wl.length - 1
  let l := siftDown wl.length (lswap wl 0 n) 0 n
  (l.getD n default, l.take n)

/-- Weight of a frontier candidate for the termination measure of the
branch-and-bound loop: `(N+1)^(budget + 1 - |set|)` bounds the size of the
search tree below the candidate when at most `N` extensions are pushed per
expansion. -/
def candWeight (numInstr budget : Nat) (c : Candidate) : Nat :=
  (numInstr + 1) ^ (budget + 1 - c.instruction_set.Size)

/-- Termination measure of the frontier loop: total weight of the
worklist. -/
def wlMeasure (numInstr budget : Nat) (wl : List Candidate) : Nat :=
  (wl.map (candWeight numInstr budget)).sum

/-- The accumulation loop of `getUpperBoundForExtraSaving`: add the raw
savings of instructions not in the set, stopping as soon as `count` reaches
the budget. -/
def ubLoop (iset : InstructionSet) (budget : Nat) : List InstructionInfo → Nat → Int
  | [], _ => 0
  | cur :: rest, count =>
    if iset.Contains cur.instruction then ubLoop iset budget rest count
    else if budget ≤ count + 1 then (cur.savings : Int)
    else (cur.savings : Int) + ubLoop iset budget rest (count + 1)

/-- `getUpperBoundForExtraSaving(set, instructions, budget)`. -/
def getUpperBoundForExtraSaving (iset : InstructionSet) (instructions : List InstructionInfo)
    (budget : Nat) : Int :=
  if budget ≤ iset.Size then 0 else ubLoop iset budget instructions iset.Size

/-- The extension-enumeration loop of `runBranchAndBound`: walk the sorted
instruction list, skipping ids below the set's maximum, ids already present
and ids with zero raw saving; push each extension whose `max_potential`
exceeds the current best, and stop the walk at the first one that does
not. -/
def expandLoop (all : List InstructionInfo) (cur : InstructionSet) (max_id : Nat)
    (value best : Int) (budget : Nat) :
    List InstructionInfo → List Candidate → List Candidate
  | [], wl => wl
  | inst :: rest, wl =>
    if inst.instruction < max_id then expandLoop all cur max_id value best budget rest wl
    else if cur.Contains inst.instruction then expandLoop all cur max_id value best budget rest wl
    else if inst.savings = 0 then expandLoop all cur max_id value best budget rest wl
    else
      let new_set := cur.Add inst.instruction
      let maxp := value + (inst.savings : Int) + getUpperBoundForExtraSaving new_set all budget
      if best < maxp then
        expandLoop all cur max_id value best budget rest (heapPush wl ⟨new_set, value, maxp⟩)
      else wl

/-- The frontier loop of `runBranchAndBound`, fuelled: pop the heap's best
candidate; discard it if its `maximum_potential` is below the best known
savings; otherwise evaluate it, update the best, and (if below budget)
enumerate extensions. -/
def bbLoop (blocks : List BlockStructure) (instructions : List InstructionInfo)
    (budget : Nat) (workers : Nat) :
    Nat → List Candidate → InstructionSet → Int → Option (InstructionSet × Int)
  | 0, _, _, _ => none
  | fuel + 1, wl, best_set, best_sav =>
    if wl.isEmpty then some (best_set, best_sav)
    else
      let p := heapPop wl
      if p.1.maximum_potential < best_sav then
        bbLoop blocks instructions budget workers fuel p.2 best_set best_sav
      else
        let value := getSavings blocks p.1.instruction_set workers
        let bs := if best_sav < value then p.1.instruction_set else best_set
        let bv := if best_sav < value then value else best_sav
        let wl2 :=
          if p.1.instruction_set.Size < budget then
            let max_id := if p.1.instruction_set.encoded.length == 0 then 0
              else p.1.instruction_set.At (p.1.instruction_set.Size - 1)
            expandLoop instructions p.1.instruction_set max_id value bv budget instructions p.2
          else p.2
        bbLoop blocks instructions budget workers fuel wl2 bs bv

/-- Sorting of the instruction list by raw saving, descending (`sort.Slice`
with `savings[i] > savings[j]`; the order among ties is unspecified in Go
and fixed here by insertion sort). -/
def sortInstructions (l : List InstructionInfo) : List InstructionInfo :=
  List.insertionSort (fun a b => b.savings ≤ a.savings) l

/-- Sorting of the block list by row count, descending (load balancing). -/
def sortBlocks (l : List BlockStructure) : List BlockStructure :=
  List.insertionSort (fun a b => b.struct.rows ≤ a.struct.rows) l

/-- `runBranchAndBound`, fuelled: sort instructions and blocks, compute the
global upper bound, build and evaluate the greedy seed (the top `budget`
instructions), and run the frontier loop seeded with the empty candidate. -/
def runBranchAndBound (prob : SelectionProblem) (workers : Nat) (fuel : Nat) :
    Option (InstructionSet × Int) :=
  let instructions := sortInstructions prob.instructions
  let blocks := sortBlocks prob.block_structure
  let max_savings := getUpperBoundForExtraSaving ⟨[]⟩ instructions prob.budget
  let seed := (instructions.take prob.budget).foldl (fun s i => s.Add i.instruction) ⟨[]⟩
  let best_sav := getSavings blocks seed workers
  bbLoop blocks instructions prob.budget workers fuel [⟨⟨[]⟩, 0, max_savings⟩] seed best_sav

/-! ### Staged solver, stages 0 and 1 (`runStagedSolver`) -/

/-- Last-write-wins lookup in an association list (a Go `map` written by a
sequence of assignments). -/
def mapLookup (data : List (InstructionSet × Int)) (k : InstructionSet) : Option Int :=
  data.foldl (fun acc p => if p.1 = k then some p.2 else acc) none

/-- The `eval_data` contents after stages 0 and 1 of `runStagedSolver`: the
empty set maps to 0, and every singleton `{id}` maps to the instruction's
raw saving `int64(instruction.savings)` (not to an evaluation of
`getSavings`). -/
def stagedEvalData01 (instructions : List InstructionInfo) : List (InstructionSet × Int) :=
  (⟨[]⟩, 0) :: instructions.map (fun i => (MakeSingletonSet i.instruction, (i.savings : Int)))

/-- The `sub_best` contents after stages 0 and 1 of `runStagedSolver`, keyed
by `(budget, excluding)`: the empty set for budget 0, the first entry of the
savings-sorted instruction list for budget 1, and the second entry for
budget 1 excluding the first. -/
def stagedSubBest01 (instructions : List InstructionInfo) :
    List ((Nat × InstructionSet) × InstructionSet) :=
  let s1_best := MakeSingletonSet (instructions.headD default).instruction
  let s1_second := MakeSingletonSet (instructions.getD 1 default).instruction
  [((0, ⟨[]⟩), ⟨[]⟩), ((1, ⟨[]⟩), s1_best), ((1, s1_best), s1_second)]

/-- Stages 0 and 1 of `runStagedSolver` (lines preceding the stage-≥ 2
loop): sort the instructions by raw saving and record the stage-0/1 cache
contents. -/
def runStagedSolverStages01 (prob : SelectionProblem) :
    List (InstructionSet × Int) × List ((Nat × InstructionSet) × InstructionSet) :=
  let instructions := sortInstructions prob.instructions
  (stagedEvalData01 instructions, stagedSubBest01 instructions)

/-! ## Theorems -/

/-! ### Generic `foldl max` helpers -/

theorem foldl_max_le_foldl_max {α : Type} (f g : α → Nat) :
    ∀ (l : List α) {b b' : Nat}, b ≤ b' → (∀ x ∈ l, f x ≤ g x) →
      l.foldl (fun acc x => Nat.max acc (f x)) b ≤ l.foldl (fun acc x => Nat.max acc (g x)) b' := by
  intro l
  induction l with
  | nil => intro b b' hb _; exact hb
  | cons y ys ih =>
    intro b b' hb h
    refine ih (Nat.max_le.mpr ⟨hb.trans (Nat.le_max_left _ _),
      (h y (List.mem_cons_self y ys)).trans (Nat.le_max_right _ _)⟩)
      (fun x hx => h x (List.mem_cons_of_mem y hx))

theorem foldl_max_le {α : Type} (f : α → Nat) :
    ∀ (l : List α) {b c : Nat}, b ≤ c → (∀ x ∈ l, f x ≤ c) →
      l.foldl (fun acc x => Nat.max acc (f x)) b ≤ c := by
  intro l
  induction l with
  | nil => intro b c hb _; exact hb
  | cons y ys ih =>
    intro b c hb h
    exact ih (Nat.max_le.mpr ⟨hb, h y (List.mem_cons_self y ys)⟩)
      (fun x hx => h x (List.mem_cons_of_mem y hx))

/-! ### Monotonicity and bounds of the block evaluator -/

theorem affectedB_mono (t : Triangle) {S T : Finset Nat} (hst : S ⊆ T) :
    ∀ (f start len : Nat), affectedB t S f start len = true → affectedB t T f start len = true := by
  intro f
  induction f with
  | zero => intro start len h; simp [affectedB] at h
  | succ f ih =>
    intro start len h
    by_cases h2 : len < 2
    · simp [affectedB, h2] at h
    · by_cases h3 : len = 2
      · simp [affectedB, h2, h3] at h ⊢
        exact hst h
      · simp only [affectedB, if_neg h2, if_neg h3, Bool.or_eq_true, decide_eq_true_eq] at h ⊢
        rcases h with (h | h) | h
        · exact Or.inl (Or.inl (hst h))
        · exact Or.inl (Or.inr (ih _ _ h))
        · exact Or.inr (ih _ _ h)

theorem affectedF_mono (t : Triangle) {S T : Finset Nat} (hst : S ⊆ T) (start len : Nat)
    (h : affectedF t S start len = true) : affectedF t T start len = true :=
  affectedB_mono t hst len start len h

theorem savingB_mono (t : Triangle) {S T : Finset Nat} (hst : S ⊆ T) :
    ∀ (f start len : Nat), savingB t S f start len ≤ savingB t T f start len := by
  intro f
  induction f with
  | zero => intro start len; simp [savingB]
  | succ f ih =>
    intro start len
    by_cases h2 : len < 2
    · simp [savingB, h2]
    · by_cases h3 : len = 2
      · simp only [savingB, if_neg h2, if_pos h3]
        by_cases hm : getInstruction t start 2 ∈ S
        · simp [hm, hst hm]
        · simp [hm]
      · simp only [savingB, if_neg h2, if_neg h3]
        by_cases ha : affectedF t S start len = false
        · simp only [if_pos ha]
          exact Nat.zero_le _
        · have haT : ¬ affectedF t T start len = false := by
            intro hc
            exact ha (by
              cases hS : affectedF t S start len with
              | false => rfl
              | true => exact absurd (affectedF_mono t hst start len hS) (by simp [hc]))
          simp only [if_neg ha, if_neg haT]
          refine foldl_max_le_foldl_max _ _ _ ?_ ?_
          · by_cases hm : getInstruction t start len ∈ S
            · simp [hm, hst hm]
            · simp [hm]
          · intro k _
            exact Nat.add_le_add (ih start (k + 1)) (ih (start + k + 1) (len - (k + 1)))

theorem savingB_le_len (t : Triangle) (S : Finset Nat) :
    ∀ (f start len : Nat), savingB t S f start len ≤ len - 1 := by
  intro f
  induction f with
  | zero => intro start len; simp [savingB]
  | succ f ih =>
    intro start len
    by_cases h2 : len < 2
    · simp [savingB, h2]
    · by_cases h3 : len = 2
      · subst h3
        simp only [savingB]
        norm_num
        split <;> omega
      · simp only [savingB, if_neg h2, if_neg h3]
        by_cases ha : affectedF t S start len = false
        · simp only [if_pos ha]
          exact Nat.zero_le _
        · simp only [if_neg ha]
          refine foldl_max_le _ _ ?_ ?_
          · split <;> omega
          · intro k hk
            have hk' : k < len - 1 := List.mem_range.mp hk
            have b1 := ih start (k + 1)
            have b2 := ih (start + k + 1) (len - (k + 1))
            omega

/-- C1.  Monotonicity of the block evaluator: for every block structure `B`
and every pair of instruction-id sets `S ⊆ S'`,
`GetSavingFor(B, S) ≤ GetSavingFor(B, S')`. -/
theorem C1_getSavingFor_mono (B : BlockStructure) (S S' : Finset Nat) (h : S ⊆ S') :
    GetSavingFor B S ≤ GetSavingFor B S' := by
  unfold GetSavingFor
  by_cases ha : affectedF B.struct S 0 (B.struct.rows + 1) = false
  · simp only [if_pos ha]
    exact Nat.zero_le _
  · have ha' : ¬ affectedF B.struct S' 0 (B.struct.rows + 1) = false := by
      intro hc
      refine ha ?_
      cases hS : affectedF B.struct S 0 (B.struct.rows + 1) with
      | false => rfl
      | true => exact absurd (affectedF_mono B.struct h 0 (B.struct.rows + 1) hS) (by simp [hc])
    simp only [if_neg ha, if_neg ha']
    exact savingB_mono B.struct h _ 0 (B.struct.rows + 1)

/-- Witness for C1 at a concrete block (the `[A,B,A,B]` block of the spec's
scenario S5) and sets `{1} ⊆ {1, 3}`. -/
theorem C1_witness :
    ({1} : Finset Nat) ⊆ ({1, 3} : Finset Nat) ∧
      GetSavingFor ⟨⟨3, [5, 3, 4, 1, 2, 1]⟩, 1⟩ {1} ≤
        GetSavingFor ⟨⟨3, [5, 3, 4, 1, 2, 1]⟩, 1⟩ {1, 3} :=
  ⟨by decide, C1_getSavingFor_mono ⟨⟨3, [5, 3, 4, 1, 2, 1]⟩, 1⟩ {1} {1, 3} (by decide)⟩

/-- The evaluator never returns more than the triangle's row count (= block
length − 1). -/
theorem getSavingFor_le_rows (B : BlockStructure) (S : Finset Nat) :
    GetSavingFor B S ≤ B.struct.rows := by
  unfold GetSavingFor
  split
  · exact Nat.zero_le _
  · have h := savingB_le_len B.struct S (B.struct.rows + 1) 0 (B.struct.rows + 1)
    simpa [savingF] using h

/-- `Triangle.set` does not change the row count. -/
theorem rows_set (t : Triangle) (i j v : Nat) : (t.set i j v).rows = t.rows := rfl

/-- The construction fold does not change the triangle's row count. -/
theorem rows_foldl_siStep (blk : List Nat) (f : Int) (rows : Nat) :
    ∀ (ivs : List (Nat × Nat)) (st : List (List Nat) × List Nat × Triangle),
      ((ivs.foldl (siStep blk f rows) st).2.2).rows = st.2.2.rows := by
  intro ivs
  induction ivs with
  | nil => intro st; rfl
  | cons iv rest ih =>
    intro st
    rw [List.foldl_cons, ih]
    rcases st with ⟨idx, freqs, tri⟩
    rcases iv with ⟨i, j⟩
    rfl

/-- C10.  Implicit upper bound of the block evaluator: a block structure
built from a block of length `n` has `rows = n - 1`, and for every set `S`
the evaluator's result is at most `n - 1`. -/
theorem C10_getSavingFor_le (idx : List (List Nat)) (freqs : List Nat) (b : BlockInfo)
    (S : Finset Nat) :
    (buildStructure idx freqs b).2.2.struct.rows = b.block.length - 1 ∧
      GetSavingFor (buildStructure idx freqs b).2.2 S ≤ b.block.length - 1 := by
  have hrows : (buildStructure idx freqs b).2.2.struct.rows = b.block.length - 1 := by
    unfold buildStructure
    exact rows_foldl_siStep b.block b.frequency (b.block.length - 1) (siIntervals b.block) _
  refine ⟨hrows, ?_⟩
  have h := getSavingFor_le_rows (buildStructure idx freqs b).2.2 S
  rwa [hrows] at h

/-- C2.  Functional contract of the parallel saving harness: the workers
jointly process the submitted blocks in some order (a permutation
`schedule` of the block list), each emitting `frequency ×
GetSavingFor(block, set)`, and the aggregator's total equals the canonical
sum `getSavings`; the value neither depends on the processing order nor on
the number of workers (≥ 1). -/
theorem C2_getSavings_contract (blocks : List BlockStructure) (iset : InstructionSet)
    (workers workers' : Nat) (schedule : List BlockStructure)
    (h1 : 1 ≤ workers) (h1' : 1 ≤ workers') (hperm : schedule.Perm blocks) :
    (schedule.map (blockOutput iset)).sum = getSavings blocks iset workers ∧
      getSavings blocks iset workers
        = (blocks.map (fun b => (GetSavingFor b iset.AsMap : Int) * b.frequency)).sum ∧
      getSavings blocks iset workers = getSavings blocks iset workers' :=
  ⟨(hperm.map (blockOutput iset)).sum_eq, rfl, rfl⟩

/-- Witness for C2: two concrete blocks processed in reversed order, with 1
and 2 workers. -/
theorem C2_witness :
    (1 : Nat) ≤ 1 ∧ (1 : Nat) ≤ 2 ∧
      ([⟨⟨1, [1]⟩, 5⟩, ⟨⟨0, []⟩, 7⟩] : List BlockStructure).Perm
        [⟨⟨0, []⟩, 7⟩, ⟨⟨1, [1]⟩, 5⟩] ∧
      (([⟨⟨1, [1]⟩, 5⟩, ⟨⟨0, []⟩, 7⟩] : List BlockStructure).map
          (blockOutput (MakeSingletonSet 1))).sum
        = getSavings [⟨⟨0, []⟩, 7⟩, ⟨⟨1, [1]⟩, 5⟩] (MakeSingletonSet 1) 1 ∧
      getSavings [⟨⟨0, []⟩, 7⟩, ⟨⟨1, [1]⟩, 5⟩] (MakeSingletonSet 1) 1
        = getSavings [⟨⟨0, []⟩, 7⟩, ⟨⟨1, [1]⟩, 5⟩] (MakeSingletonSet 1) 2 := by
  refine ⟨by decide, by decide, by decide, ?_, ?_⟩
  · exact (C2_getSavings_contract [⟨⟨0, []⟩, 7⟩, ⟨⟨1, [1]⟩, 5⟩] (MakeSingletonSet 1) 1 2
      [⟨⟨1, [1]⟩, 5⟩, ⟨⟨0, []⟩, 7⟩] (by decide) (by decide) (by decide)).1
  · exact (C2_getSavings_contract [⟨⟨0, []⟩, 7⟩, ⟨⟨1, [1]⟩, 5⟩] (MakeSingletonSet 1) 1 2
      [⟨⟨1, [1]⟩, 5⟩, ⟨⟨0, []⟩, 7⟩] (by decide) (by decide) (by decide)).2.2

/-- C4.  The code violates the claimed bound `best_savings ≤
upperBoundExtra(∅, instructions, budget)`: on the single-block catalog
`[JUMPDEST, 0x01, 0x02]` with frequency 1 and budget 2, the pipeline interns
only one super instruction (id 1, raw saving 1), the global upper bound is
1, but the driver's greedy seed is `{0, 1}` (it blindly takes the top-2
entries, including the reserved id 0 with raw saving 0) and the evaluator
counts the unset (INVALID) triangle cells of the JUMPDEST-led block as
matches, so the returned best savings is 2 > 1. -/
theorem C4_bound_violated_at_failing_input :
    runBranchAndBound
        ⟨buildInstructions (CreateSiIndex [⟨[91, 1, 2], 1⟩]).1 (CreateSiIndex [⟨[91, 1, 2], 1⟩]).2.1,
          (CreateSiIndex [⟨[91, 1, 2], 1⟩]).1, (CreateSiIndex [⟨[91, 1, 2], 1⟩]).2.2, 2⟩ 1 10
      = some (⟨[0, 0, 0, 0, 1, 0, 0, 0]⟩, 2) ∧
    getUpperBoundForExtraSaving ⟨[]⟩
        (sortInstructions
          (buildInstructions (CreateSiIndex [⟨[91, 1, 2], 1⟩]).1 (CreateSiIndex [⟨[91, 1, 2], 1⟩]).2.1)) 2
      = 1 ∧
    ¬ ((2 : Int) ≤ 1) := by
  refine ⟨by decide, by decide, by decide⟩

/-! ### Stage 1 of the staged solver (C3) -/

/-- A last-write-wins map fold over entries whose keys all differ from `k`
leaves the accumulator unchanged. -/
theorem mapLookup_aux_no_match {k : InstructionSet} :
    ∀ (L : List (InstructionSet × Int)) (acc : Option Int), (∀ p ∈ L, p.1 ≠ k) →
      L.foldl (fun acc p => if p.1 = k then some p.2 else acc) acc = acc := by
  intro L
  induction L with
  | nil => intro acc _; rfl
  | cons p rest ih =>
    intro acc h
    rw [List.foldl_cons, if_neg (h p (List.mem_cons_self p rest))]
    exact ih acc (fun q hq => h q (List.mem_cons_of_mem p hq))

/-- In a map written by a sequence of assignments with pairwise-distinct
keys, looking up a written key returns its value (independently of the
accumulator). -/
theorem mapLookup_aux_of_mem {k : InstructionSet} {v : Int} :
    ∀ (L : List (InstructionSet × Int)) (acc : Option Int), (L.map Prod.fst).Nodup →
      (k, v) ∈ L →
      L.foldl (fun acc p => if p.1 = k then some p.2 else acc) acc = some v := by
  intro L
  induction L with
  | nil => intro acc _ hmem; exact absurd hmem (List.not_mem_nil _)
  | cons p rest ih =>
    intro acc hnd hmem
    rw [List.map_cons, List.nodup_cons] at hnd
    rcases List.mem_cons.mp hmem with heq | hmem'
    · subst heq
      rw [List.foldl_cons, if_pos rfl]
      refine mapLookup_aux_no_match rest (some v) ?_
      intro q hq hqk
      apply hnd.1
      rw [← hqk]
      exact List.mem_map.mpr ⟨q, hq, rfl⟩
    · rw [List.foldl_cons]
      exact ih _ hnd.2 hmem'

theorem mapLookup_of_mem {k : InstructionSet} {v : Int} {L : List (InstructionSet × Int)}
    (hnd : (L.map Prod.fst).Nodup) (hmem : (k, v) ∈ L) : mapLookup L k = some v :=
  mapLookup_aux_of_mem L none hnd hmem

/-- `MakeSingletonSet` is injective on `uint32` ids. -/
theorem makeSingletonSet_inj {a b : Nat} (ha : a < 2 ^ 32) (hb : b < 2 ^ 32)
    (h : MakeSingletonSet a = MakeSingletonSet b) : a = b := by
  have h' : toLEBytes a = toLEBytes b := congrArg InstructionSet.encoded h
  simp only [toLEBytes, List.cons.injEq, and_true] at h'
  omega

/-- C3 counterexample.  On the single-block catalog `[0x01, 0x01, 0x01]`
(frequency 1, the pipeline's own instruction list), stage 1 of the staged
solver records `2` (the raw saving of the length-2 super instruction id 1:
two occurrences × saving 1) into `eval_cache[{1}]`, whereas the evaluated
true savings `getSavings(blocks, {1}, 1)` is `1` (the two occurrences
overlap and only one can be applied). -/
theorem C3_counterexample :
    mapLookup
        (runStagedSolverStages01
          ⟨buildInstructions (CreateSiIndex [⟨[1, 1, 1], 1⟩]).1 (CreateSiIndex [⟨[1, 1, 1], 1⟩]).2.1,
            (CreateSiIndex [⟨[1, 1, 1], 1⟩]).1, (CreateSiIndex [⟨[1, 1, 1], 1⟩]).2.2, 3⟩).1
        (MakeSingletonSet 1)
      = some 2 ∧
    getSavings (CreateSiIndex [⟨[1, 1, 1], 1⟩]).2.2 (MakeSingletonSet 1) 1 = 1 ∧
    (2 : Int) ≠ 1 := by
  refine ⟨by decide, by decide, by decide⟩

/-- C3 as amended.  After stage 1 of the staged solver, `eval_cache` maps
every singleton `{id}` to that instruction's *raw* saving
(`int64(instruction.savings)`), not to its evaluated savings, and
`sub_best{1, ∅}` and `sub_best{1, {first}}` are the singletons of the first
two entries of the instruction list sorted by raw saving descending
(hypotheses: pairwise-distinct `uint32` ids, at least implicitly assumed by
the source, which indexes `instructions[0]` and `instructions[1]`). -/
theorem C3_amended (prob : SelectionProblem) (inst : InstructionInfo)
    (hn : (prob.instructions.map InstructionInfo.instruction).Nodup)
    (hb : ∀ i ∈ prob.instructions, i.instruction < 2 ^ 32)
    (hmem : inst ∈ sortInstructions prob.instructions) :
    mapLookup (runStagedSolverStages01 prob).1 (MakeSingletonSet inst.instruction)
        = some (inst.savings : Int) ∧
      (runStagedSolverStages01 prob).2
        = [((0, ⟨[]⟩), ⟨[]⟩),
            ((1, ⟨[]⟩),
              MakeSingletonSet ((sortInstructions prob.instructions).headD default).instruction),
            ((1, MakeSingletonSet ((sortInstructions prob.instructions).headD default).instruction),
              MakeSingletonSet ((sortInstructions prob.instructions).getD 1 default).instruction)] := by
  have hperm : (sortInstructions prob.instructions).Perm prob.instructions :=
    List.perm_insertionSort _ _
  have hb' : ∀ i ∈ sortInstructions prob.instructions, i.instruction < 2 ^ 32 :=
    fun i hi => hb i (hperm.mem_iff.mp hi)
  have hidsnd : ((sortInstructions prob.instructions).map InstructionInfo.instruction).Nodup :=
    (hperm.map InstructionInfo.instruction).nodup_iff.mpr hn
  refine ⟨?_, rfl⟩
  refine mapLookup_of_mem ?_ ?_
  · show (((⟨[]⟩, 0) :: (sortInstructions prob.instructions).map
        (fun i => (MakeSingletonSet i.instruction, (i.savings : Int)))).map Prod.fst).Nodup
    rw [List.map_cons, List.nodup_cons]
    constructor
    · intro hc
      rw [List.map_map] at hc
      rcases List.mem_map.mp hc with ⟨i, _, hi⟩
      have : (MakeSingletonSet i.instruction).encoded = [] := congrArg InstructionSet.encoded hi
      simp [MakeSingletonSet, toLEBytes] at this
    · rw [List.map_map]
      have : ((sortInstructions prob.instructions).map
          (Prod.fst ∘ fun i => (MakeSingletonSet i.instruction, (i.savings : Int))))
          = ((sortInstructions prob.instructions).map InstructionInfo.instruction).map
              MakeSingletonSet := by
        rw [List.map_map]; rfl
      rw [this]
      refine List.Nodup.map_on ?_ hidsnd
      intro x hx y hy hxy
      rcases List.mem_map.mp hx with ⟨i, hi, rfl⟩
      rcases List.mem_map.mp hy with ⟨j, hj, rfl⟩
      exact makeSingletonSet_inj (hb' i hi) (hb' j hj) hxy
  · exact List.mem_cons_of_mem _
      (List.mem_map_of_mem (fun i => (MakeSingletonSet i.instruction, (i.savings : Int))) hmem)

/-! ### Evaluator boundary behaviour (C7) -/

/-- A structure with zero rows (block length 1) always evaluates to 0. -/
theorem getSavingFor_rows_zero (B : BlockStructure) (S : Finset Nat) (h : B.struct.rows = 0) :
    GetSavingFor B S = 0 := by
  unfold GetSavingFor affectedF
  rw [h]
  simp [affectedB]

theorem siIntervals_len1 (a : Nat) : siIntervals [a] = [] := by
  unfold siIntervals MAX_SI_LENGTH
  rw [show List.range (List.length [a] + 1) = [0, 1] from rfl]
  norm_num

theorem siIntervals_len2 (a b : Nat) (ha : a ≠ JUMPDEST) : siIntervals [a, b] = [(0, 2)] := by
  unfold siIntervals MAX_SI_LENGTH
  rw [show List.range (List.length [a, b] + 1) = [0, 1, 2] from rfl]
  simp [ha]

theorem siIntervals_len2_jumpdest (b : Nat) : siIntervals [JUMPDEST, b] = [] := by
  unfold siIntervals MAX_SI_LENGTH
  rw [show List.range (List.length [JUMPDEST, b] + 1) = [0, 1, 2] from rfl]
  norm_num

theorem buildStructure_len2 (idx : List (List Nat)) (freqs : List Nat) (a b : Nat) (f : Int)
    (ha : a ≠ JUMPDEST) :
    buildStructure idx freqs ⟨[a, b], f⟩
      = ((siIndexAdd idx [a, b]).1, bumpFreq freqs (siIndexAdd idx [a, b]).2 f,
          ⟨⟨1, [(siIndexAdd idx [a, b]).2]⟩, f⟩) := by
  unfold buildStructure
  rw [siIntervals_len2 a b ha]
  simp only [List.foldl_cons, List.foldl_nil, siStep, NewSuperInstruction]
  norm_num
  rcases h : List.indexOf? [a, b] (if idx.isEmpty = true then [[]] else idx) with _ | k <;>
    simp [siIndexAdd, h, Triangle.set, NewTriangleMatrix, triangleSize]

/-- The evaluator on a one-cell triangle: 1 iff the stored id is selected. -/
theorem getSavingFor_single_cell (id : Nat) (f : Int) (S : Finset Nat) :
    GetSavingFor ⟨⟨1, [id]⟩, f⟩ S = if id ∈ S then 1 else 0 := by
  by_cases hm : id ∈ S <;>
    simp [GetSavingFor, affectedF, affectedB, savingF, savingB, getInstruction, Triangle.get,
      triangleSize, hm]

/-- C7 counterexample.  For the length-2 block `[JUMPDEST, 0x07]` no
2-opcode super instruction is interned at all (the index stays empty), yet
the evaluator returns 1 for the set `{0}`: the single triangle cell keeps
the zero value `INVALID`, and a set containing `INVALID` matches it.  Hence
"`1` iff the set contains the id of the block's single 2-opcode super
instruction, else `0`" fails for sets containing the reserved id 0. -/
theorem C7_counterexample :
    (buildStructure [] [] ⟨[91, 7], 1⟩).1 = [] ∧
      GetSavingFor (buildStructure [] [] ⟨[91, 7], 1⟩).2.2 {0} = 1 ∧
      (1 : Nat) ≠ 0 := by
  refine ⟨by decide, by decide, by decide⟩

/-- C7 as amended.  Block length 1 (rows = 0): the evaluator returns 0 for
every set.  Block length 2 not starting with `JUMPDEST`: the evaluator
returns 1 iff the set contains the id the index assigns to the block's
single 2-opcode super instruction, else 0.  Block length 2 starting with
`JUMPDEST`: no super instruction is interned and the evaluator returns 1
iff the set contains the reserved id `INVALID` (in particular 0 for every
set of proper ids). -/
theorem C7_amended :
    (∀ (idx : List (List Nat)) (freqs : List Nat) (a : Nat) (f : Int) (S : Finset Nat),
        GetSavingFor (buildStructure idx freqs ⟨[a], f⟩).2.2 S = 0) ∧
      (∀ (idx : List (List Nat)) (freqs : List Nat) (a b : Nat) (f : Int) (S : Finset Nat),
        a ≠ JUMPDEST →
        GetSavingFor (buildStructure idx freqs ⟨[a, b], f⟩).2.2 S
          = if (siIndexAdd idx (NewSuperInstruction [a, b])).2 ∈ S then 1 else 0) ∧
      (∀ (idx : List (List Nat)) (freqs : List Nat) (b : Nat) (f : Int) (S : Finset Nat),
        GetSavingFor (buildStructure idx freqs ⟨[JUMPDEST, b], f⟩).2.2 S
          = if INVALID ∈ S then 1 else 0) := by
  refine ⟨?_, ?_, ?_⟩
  · intro idx freqs a f S
    refine getSavingFor_rows_zero _ S ?_
    have h := (C10_getSavingFor_le idx freqs ⟨[a], f⟩ S).1
    simpa using h
  · intro idx freqs a b f S ha
    rw [buildStructure_len2 idx freqs a b f ha]
    exact getSavingFor_single_cell _ f S
  · intro idx freqs b f S
    have hstruct : buildStructure idx freqs ⟨[JUMPDEST, b], f⟩
        = (idx, freqs, ⟨⟨1, [0]⟩, f⟩) := by
      unfold buildStructure
      rw [siIntervals_len2_jumpdest b]
      simp [NewTriangleMatrix, triangleSize]
    rw [hstruct]
    exact getSavingFor_single_cell 0 f S

/-- Witness for C7 as amended: the length-2 block `[0x01, 0x02]` against the
empty index; its super instruction is interned at id 1, and the evaluator
returns 1 on `{1}`. -/
theorem C7_amended_witness :
    (1 : Nat) ≠ JUMPDEST ∧
      GetSavingFor (buildStructure [] [] ⟨[1, 2], 1⟩).2.2 {1}
        = if (siIndexAdd [] (NewSuperInstruction [1, 2])).2 ∈ ({1} : Finset Nat) then 1 else 0 :=
  ⟨by decide, (C7_amended.2.1 [] [] 1 2 1 {1} (by decide))⟩

/-- Witness for C3 as amended, on the `[0x01,0x01,0x01]` catalog: the
stage-1 cache entry of singleton `{1}` is its raw saving 2. -/
theorem C3_amended_witness :
    mapLookup
        (runStagedSolverStages01
          ⟨buildInstructions (CreateSiIndex [⟨[1, 1, 1], 1⟩]).1 (CreateSiIndex [⟨[1, 1, 1], 1⟩]).2.1,
            (CreateSiIndex [⟨[1, 1, 1], 1⟩]).1, (CreateSiIndex [⟨[1, 1, 1], 1⟩]).2.2, 3⟩).1
        (MakeSingletonSet 1)
      = some 2 :=
  (C3_amended
    ⟨buildInstructions (CreateSiIndex [⟨[1, 1, 1], 1⟩]).1 (CreateSiIndex [⟨[1, 1, 1], 1⟩]).2.1,
      (CreateSiIndex [⟨[1, 1, 1], 1⟩]).1, (CreateSiIndex [⟨[1, 1, 1], 1⟩]).2.2, 3⟩
    ⟨1, 2⟩ (by decide) (by decide) (by decide)).1

/-! ### Byte-level facts about the packed encoding -/

theorem toLEBytes_lt (id : Nat) : ∀ b ∈ toLEBytes id, b < 256 := by
  intro b hb
  simp only [toLEBytes, List.mem_cons, List.not_mem_nil, or_false] at hb
  rcases hb with h | h | h | h <;> (subst h; omega)

theorem length_flatMap_toLEBytes (l : List Nat) : (l.flatMap toLEBytes).length = 4 * l.length := by
  induction l with
  | nil => rfl
  | cons x xs ih =>
    rw [List.flatMap_cons, List.length_append, ih]
    simp [toLEBytes]
    omega

theorem size_mk_flatMap (l : List Nat) :
    (InstructionSet.mk (l.flatMap toLEBytes)).Size = l.length := by
  show (l.flatMap toLEBytes).length / 4 = l.length
  rw [length_flatMap_toLEBytes]
  omega

theorem at_mk_flatMap (l : List Nat) (h : ∀ x ∈ l, x < 2 ^ 32) :
    ∀ i, i < l.length → (InstructionSet.mk (l.flatMap toLEBytes)).At i = l.getD i 0 := by
  induction l with
  | nil => intro i hi; simp at hi
  | cons x xs ih =>
    intro i hi
    cases i with
    | zero =>
      have hx : x < 2 ^ 32 := h x (List.mem_cons_self x xs)
      show (InstructionSet.mk (toLEBytes x ++ xs.flatMap toLEBytes)).At 0 = x
      simp only [InstructionSet.At, toLEBytes]
      norm_num
      omega
    | succ i =>
      have hxs : ∀ y ∈ xs, y < 2 ^ 32 := fun y hy => h y (List.mem_cons_of_mem x hy)
      have hi' : i < xs.length := by simpa using hi
      have hrec := ih hxs i hi'
      show (InstructionSet.mk (toLEBytes x ++ xs.flatMap toLEBytes)).At (i + 1)
        = (x :: xs).getD (i + 1) 0
      rw [List.getD_cons_succ, ← hrec]
      simp only [InstructionSet.At, toLEBytes]
      have h4 : ∀ (k : Nat), (([x % 256, x / 256 % 256, x / 65536 % 256, x / 16777216 % 256] :
          List Nat) ++ xs.flatMap toLEBytes).getD (4 + k) 0 = (xs.flatMap toLEBytes).getD k 0 := by
        intro k
        rw [show 4 + k = k + 4 by omega]
        simp [List.getD_cons_succ]
      rw [show 4 * (i + 1) = 4 + 4 * i by omega]
      rw [show 4 + 4 * i + 1 = 4 + (4 * i + 1) by omega]
      rw [show 4 + 4 * i + 2 = 4 + (4 * i + 2) by omega]
      rw [show 4 + 4 * i + 3 = 4 + (4 * i + 3) by omega]
      rw [h4, h4, h4, h4]

theorem length_idsOf (s : InstructionSet) : (idsOf s).length = s.Size := by
  simp [idsOf]

theorem idsOf_mk_flatMap (l : List Nat) (h : ∀ x ∈ l, x < 2 ^ 32) :
    idsOf (InstructionSet.mk (l.flatMap toLEBytes)) = l := by
  have hlen : (idsOf (InstructionSet.mk (l.flatMap toLEBytes))).length = l.length := by
    rw [length_idsOf, size_mk_flatMap]
  refine List.ext_getElem hlen ?_
  intro i h1 h2
  simp only [idsOf, List.getElem_map, List.getElem_range]
  rw [at_mk_flatMap l h i h2, List.getD_eq_getElem l 0 h2]

theorem getD_encoded_lt (s : InstructionSet) (hb : ∀ b ∈ s.encoded, b < 256) (n : Nat) :
    s.encoded.getD n 0 < 256 := by
  by_cases hn : n < s.encoded.length
  · rw [List.getD_eq_getElem s.encoded 0 hn]
    exact hb _ (List.getElem_mem hn)
  · rw [List.getD_eq_default s.encoded 0 (by omega)]
    omega

theorem at_lt (s : InstructionSet) (hb : ∀ b ∈ s.encoded, b < 256) (i : Nat) :
    s.At i < 2 ^ 32 := by
  have h0 := getD_encoded_lt s hb (4 * i)
  have h1 := getD_encoded_lt s hb (4 * i + 1)
  have h2 := getD_encoded_lt s hb (4 * i + 2)
  have h3 := getD_encoded_lt s hb (4 * i + 3)
  unfold InstructionSet.At
  omega

theorem contains_iff_mem_idsOf (s : InstructionSet) (id : Nat) :
    s.Contains id = true ↔ id ∈ idsOf s := by
  simp only [InstructionSet.Contains, idsOf, List.any_eq_true, List.mem_range, beq_iff_eq,
    List.mem_map]

/-! ### The two-pointer merges preserve sortedness -/

theorem mem_unionMerge : ∀ (f : Nat) (a b : List Nat) (x : Nat),
    x ∈ unionMerge f a b ↔ x ∈ a ∨ x ∈ b := by
  intro f
  induction f with
  | zero => intro a b x; simp [unionMerge]
  | succ f ih =>
    intro a b x
    match a, b with
    | [], b => simp [unionMerge]
    | y :: ys, [] => simp [unionMerge]
    | y :: ys, z :: zs =>
      unfold unionMerge
      split_ifs with h1 h2
      · simp only [List.mem_cons, ih]
        constructor
        · rintro (h | h | h)
          · exact Or.inl (Or.inl h)
          · exact Or.inl (Or.inr h)
          · exact Or.inr h
        · rintro ((h | h) | h)
          · exact Or.inl h
          · exact Or.inr (Or.inl h)
          · exact Or.inr (Or.inr h)
      · subst h2
        simp only [List.mem_cons, ih]
        constructor
        · rintro (h | h | h)
          · exact Or.inl (Or.inl h)
          · exact Or.inl (Or.inr h)
          · exact Or.inr (Or.inr h)
        · rintro ((h | h) | h | h)
          · exact Or.inl h
          · exact Or.inr (Or.inl h)
          · exact Or.inl h
          · exact Or.inr (Or.inr h)
      · simp only [List.mem_cons, ih, List.mem_cons]
        constructor
        · rintro (h | (h | h) | h)
          · exact Or.inr (Or.inl h)
          · exact Or.inl (Or.inl h)
          · exact Or.inl (Or.inr h)
          · exact Or.inr (Or.inr h)
        · rintro ((h | h) | h | h)
          · exact Or.inr (Or.inl (Or.inl h))
          · exact Or.inr (Or.inl (Or.inr h))
          · exact Or.inl h
          · exact Or.inr (Or.inr h)

theorem sorted_unionMerge : ∀ (f : Nat) (a b : List Nat), a.length + b.length ≤ f →
    a.Pairwise (· < ·) → b.Pairwise (· < ·) → (unionMerge f a b).Pairwise (· < ·) := by
  intro f
  induction f with
  | zero =>
    intro a b hf ha hb
    have ha0 : a = [] := List.eq_nil_of_length_eq_zero (by omega)
    have hb0 : b = [] := List.eq_nil_of_length_eq_zero (by omega)
    subst ha0; subst hb0
    simp [unionMerge]
  | succ f ih =>
    intro a b hf ha hb
    match a, b with
    | [], b => simpa [unionMerge] using hb
    | y :: ys, [] => simpa [unionMerge] using ha
    | y :: ys, z :: zs =>
      rw [List.pairwise_cons] at ha hb
      unfold unionMerge
      split_ifs with h1 h2
      · rw [List.pairwise_cons]
        refine ⟨?_, ih ys (z :: zs) (by simp at hf ⊢; omega) ha.2 (List.pairwise_cons.mpr hb)⟩
        intro w hw
        rcases (mem_unionMerge f ys (z :: zs) w).mp hw with h | h
        · exact ha.1 w h
        · rcases List.mem_cons.mp h with rfl | h
          · exact h1
          · exact h1.trans (hb.1 w h)
      · subst h2
        rw [List.pairwise_cons]
        refine ⟨?_, ih ys zs (by simp at hf ⊢; omega) ha.2 hb.2⟩
        intro w hw
        rcases (mem_unionMerge f ys zs w).mp hw with h | h
        · exact ha.1 w h
        · exact hb.1 w h
      · have hzy : z < y := by omega
        rw [List.pairwise_cons]
        refine ⟨?_, ih (y :: ys) zs (by simp at hf ⊢; omega) (List.pairwise_cons.mpr ha) hb.2⟩
        intro w hw
        rcases (mem_unionMerge f (y :: ys) zs w).mp hw with h | h
        · rcases List.mem_cons.mp h with rfl | h
          · exact hzy
          · exact hzy.trans (ha.1 w h)
        · exact hb.1 w h

theorem mem_intersectMerge : ∀ (f : Nat) (a b : List Nat) (x : Nat),
    x ∈ intersectMerge f a b → x ∈ a := by
  intro f
  induction f with
  | zero => intro a b x h; simp [intersectMerge] at h
  | succ f ih =>
    intro a b x h
    match a, b with
    | [], b => simp [intersectMerge] at h
    | y :: ys, [] => simp [intersectMerge] at h
    | y :: ys, z :: zs =>
      unfold intersectMerge at h
      split_ifs at h with h1 h2
      · exact List.mem_cons_of_mem y (ih ys (z :: zs) x h)
      · exact ih (y :: ys) zs x h
      · rcases List.mem_cons.mp h with rfl | h
        · exact List.mem_cons_self _ _
        · exact List.mem_cons_of_mem y (ih ys zs x h)

theorem sorted_intersectMerge : ∀ (f : Nat) (a b : List Nat),
    a.Pairwise (· < ·) → (intersectMerge f a b).Pairwise (· < ·) := by
  intro f
  induction f with
  | zero => intro a b _; simp [intersectMerge]
  | succ f ih =>
    intro a b ha
    match a, b with
    | [], b => simp [intersectMerge]
    | y :: ys, [] => simp [intersectMerge]
    | y :: ys, z :: zs =>
      rw [List.pairwise_cons] at ha
      unfold intersectMerge
      split_ifs with h1 h2
      · exact ih ys (z :: zs) ha.2
      · exact ih (y :: ys) zs (List.pairwise_cons.mpr ha)
      · rw [List.pairwise_cons]
        exact ⟨fun w hw => ha.1 w (mem_intersectMerge f ys zs w hw), ih ys zs ha.2⟩

theorem mem_diffMerge : ∀ (f : Nat) (a b : List Nat) (x : Nat),
    x ∈ diffMerge f a b → x ∈ a := by
  intro f
  induction f with
  | zero => intro a b x h; exact h
  | succ f ih =>
    intro a b x h
    match a, b with
    | [], b => simp [diffMerge] at h
    | y :: ys, [] => exact h
    | y :: ys, z :: zs =>
      unfold diffMerge at h
      split_ifs at h with h1 h2
      · rcases List.mem_cons.mp h with rfl | h
        · exact List.mem_cons_self _ _
        · exact List.mem_cons_of_mem y (ih ys (z :: zs) x h)
      · exact ih (y :: ys) zs x h
      · exact List.mem_cons_of_mem y (ih ys zs x h)

theorem sorted_diffMerge : ∀ (f : Nat) (a b : List Nat),
    a.Pairwise (· < ·) → (diffMerge f a b).Pairwise (· < ·) := by
  intro f
  induction f with
  | zero => intro a b ha; exact ha
  | succ f ih =>
    intro a b ha
    match a, b with
    | [], b => simp [diffMerge]
    | y :: ys, [] => exact ha
    | y :: ys, z :: zs =>
      rw [List.pairwise_cons] at ha
      unfold diffMerge
      split_ifs with h1 h2
      · rw [List.pairwise_cons]
        exact ⟨fun w hw => ha.1 w (mem_diffMerge f ys (z :: zs) w hw), ih ys (z :: zs) ha.2⟩
      · exact ih (y :: ys) zs (List.pairwise_cons.mpr ha)
      · exact ih ys zs ha.2

/-! ### Strictly sorted lists are determined by their members -/

theorem pairwise_lt_nodup {l : List Nat} (h : l.Pairwise (· < ·)) : l.Nodup :=
  h.imp (fun hlt => Nat.ne_of_lt hlt)

theorem sorted_eq_of_mem_iff {l l' : List Nat} (hl : l.Pairwise (· < ·))
    (hl' : l'.Pairwise (· < ·)) (h : ∀ x, x ∈ l ↔ x ∈ l') : l = l' :=
  List.eq_of_perm_of_sorted
    ((List.perm_ext_iff_of_nodup (pairwise_lt_nodup hl) (pairwise_lt_nodup hl')).mpr h)
    (hl.imp (fun hlt => Nat.le_of_lt hlt))
    (hl'.imp (fun hlt => Nat.le_of_lt hlt))

/-! ### Validity closure of the set operations (C9) -/

theorem valid_mk_flatMap (l : List Nat) (h32 : ∀ x ∈ l, x < 2 ^ 32)
    (hs : l.Pairwise (· < ·)) : (InstructionSet.mk (l.flatMap toLEBytes)).valid := by
  refine ⟨?_, ?_, ?_⟩
  · intro b hb
    rcases List.mem_flatMap.mp hb with ⟨x, _, hbx⟩
    exact toLEBytes_lt x b hbx
  · show (l.flatMap toLEBytes).length % 4 = 0
    rw [length_flatMap_toLEBytes]
    omega
  · rwa [idsOf_mk_flatMap l h32]

theorem idsOf_lt_of_valid {s : InstructionSet} (hv : s.valid) : ∀ x ∈ idsOf s, x < 2 ^ 32 := by
  intro x hx
  rcases List.mem_map.mp hx with ⟨i, _, rfl⟩
  exact at_lt s hv.1 i

theorem valid_emptySet : (InstructionSet.mk []).valid := by
  refine ⟨by simp, by simp, ?_⟩
  simp [idsOf, InstructionSet.Size]

theorem valid_makeSingletonSet (id : Nat) (h : id < 2 ^ 32) : (MakeSingletonSet id).valid := by
  have : MakeSingletonSet id = InstructionSet.mk ([id].flatMap toLEBytes) := rfl
  rw [this]
  refine valid_mk_flatMap [id] ?_ (by simp)
  intro x hx
  rcases List.mem_singleton.mp hx with rfl
  exact h

theorem valid_Union {a b : InstructionSet} (ha : a.valid) (hb : b.valid) : (Union a b).valid := by
  unfold Union
  split_ifs with h1 h2
  · exact hb
  · exact ha
  · refine valid_mk_flatMap _ ?_ ?_
    · intro x hx
      rcases (mem_unionMerge _ _ _ x).mp hx with h | h
      · exact idsOf_lt_of_valid ha x h
      · exact idsOf_lt_of_valid hb x h
    · refine sorted_unionMerge _ _ _ ?_ ha.2.2 hb.2.2
      rw [length_idsOf, length_idsOf]

theorem valid_Intersect {a : InstructionSet} (b : InstructionSet) (ha : a.valid) :
    (Intersect a b).valid := by
  unfold Intersect
  split_ifs with h1 h2
  · exact ha
  · have hb0 : b.encoded = [] := List.length_eq_zero.mp (by simpa using h2)
    refine ⟨by simp [hb0], by simp [hb0], ?_⟩
    simp [idsOf, InstructionSet.Size, hb0]
  · refine valid_mk_flatMap _ ?_ ?_
    · intro x hx
      exact idsOf_lt_of_valid ha x (mem_intersectMerge _ _ _ x hx)
    · exact sorted_intersectMerge _ _ _ ha.2.2

theorem valid_Difference {a : InstructionSet} (b : InstructionSet) (ha : a.valid) :
    (Difference a b).valid := by
  unfold Difference
  split_ifs with h1 h2
  · exact ha
  · exact ha
  · refine valid_mk_flatMap _ ?_ ?_
    · intro x hx
      exact idsOf_lt_of_valid ha x (mem_diffMerge _ _ _ x hx)
    · exact sorted_diffMerge _ _ _ ha.2.2

theorem valid_Add {s : InstructionSet} (hv : s.valid) (id : Nat) (h : id < 2 ^ 32) :
    (s.Add id).valid := by
  unfold InstructionSet.Add
  split_ifs with h1
  · exact hv
  · exact valid_Union hv (valid_makeSingletonSet id h)

theorem valid_Remove {s : InstructionSet} (hv : s.valid) (id : Nat) : (s.Remove id).valid := by
  unfold InstructionSet.Remove
  split_ifs with h1
  · exact valid_Difference _ hv
  · exact hv

/-! ### Reconstructing the encoding from the decoded ids -/

theorem idsOf_cons4 (b0 b1 b2 b3 : Nat) (rest : List Nat) :
    idsOf (InstructionSet.mk (b0 :: b1 :: b2 :: b3 :: rest))
      = (InstructionSet.mk (b0 :: b1 :: b2 :: b3 :: rest)).At 0
          :: idsOf (InstructionSet.mk rest) := by
  have hsz : (InstructionSet.mk (b0 :: b1 :: b2 :: b3 :: rest)).Size
      = (InstructionSet.mk rest).Size + 1 := by
    unfold InstructionSet.Size
    simp only [List.length_cons]
    omega
  unfold idsOf
  rw [hsz, List.range_succ_eq_map, List.map_cons, List.map_map]
  congr 1

theorem at0_bytes (b0 b1 b2 b3 : Nat) (rest : List Nat)
    (h0 : b0 < 256) (h1 : b1 < 256) (h2 : b2 < 256) (h3 : b3 < 256) :
    toLEBytes ((InstructionSet.mk (b0 :: b1 :: b2 :: b3 :: rest)).At 0) = [b0, b1, b2, b3] := by
  have hat : (InstructionSet.mk (b0 :: b1 :: b2 :: b3 :: rest)).At 0
      = b0 + b1 * 256 + b2 * 65536 + b3 * 16777216 := rfl
  rw [hat]
  simp only [toLEBytes, List.cons.injEq, and_true]
  omega

theorem encoded_eq_flat : ∀ (n : Nat) (s : InstructionSet), s.encoded.length = n → s.valid →
    s.encoded = (idsOf s).flatMap toLEBytes := by
  intro n
  induction n using Nat.strong_induction_on with
  | _ n ih =>
    intro s hlen hv
    rcases hs : s.encoded with _ | ⟨b0, _ | ⟨b1, _ | ⟨b2, _ | ⟨b3, rest⟩⟩⟩⟩
    · have hids : idsOf s = [] := by
        unfold idsOf InstructionSet.Size
        rw [hs]
        rfl
      rw [hids]
      rfl
    · exact absurd hv.2.1 (by rw [hs]; norm_num)
    · exact absurd hv.2.1 (by rw [hs]; norm_num)
    · exact absurd hv.2.1 (by rw [hs]; norm_num)
    · have h4 : rest.length % 4 = 0 := by
        have hl := hv.2.1
        rw [hs] at hl
        simp only [List.length_cons] at hl
        omega
      have he : (⟨s.encoded⟩ : InstructionSet) = s := rfl
      have hvrest : (InstructionSet.mk rest).valid := by
        refine ⟨?_, h4, ?_⟩
        · intro b hbm
          refine hv.1 b ?_
          rw [hs]
          simp [hbm]
        · have hp := hv.2.2
          rw [← he, hs, idsOf_cons4] at hp
          exact (List.pairwise_cons.mp hp).2
      have hrest := ih rest.length (by rw [hs] at hlen; simp at hlen; omega)
        (InstructionSet.mk rest) rfl hvrest
      have hb0 : b0 < 256 := hv.1 b0 (by rw [hs]; simp)
      have hb1 : b1 < 256 := hv.1 b1 (by rw [hs]; simp)
      have hb2 : b2 < 256 := hv.1 b2 (by rw [hs]; simp)
      have hb3 : b3 < 256 := hv.1 b3 (by rw [hs]; simp)
      calc b0 :: b1 :: b2 :: b3 :: rest
          = [b0, b1, b2, b3] ++ rest := rfl
        _ = toLEBytes ((InstructionSet.mk (b0 :: b1 :: b2 :: b3 :: rest)).At 0)
              ++ (idsOf (InstructionSet.mk rest)).flatMap toLEBytes := by
              rw [at0_bytes b0 b1 b2 b3 rest hb0 hb1 hb2 hb3, ← hrest]
        _ = (idsOf (InstructionSet.mk (b0 :: b1 :: b2 :: b3 :: rest))).flatMap toLEBytes := by
              rw [idsOf_cons4, List.flatMap_cons]
        _ = (idsOf s).flatMap toLEBytes := by rw [← he, hs]

theorem encoded_eq_flat_of_valid {s : InstructionSet} (hv : s.valid) :
    s.encoded = (idsOf s).flatMap toLEBytes :=
  encoded_eq_flat s.encoded.length s rfl hv

/-! ### Decoding, membership extensionality, canonical `MakeSet` -/

theorem decode_isSome_of_valid {s : InstructionSet} (hv : s.valid) :
    (decodeInstructionSet s.encoded).isSome = true := by
  simp [decodeInstructionSet, hv.2.1]

theorem encoding_ext {s t : InstructionSet} (hs : s.valid) (ht : t.valid) :
    s.encoded = t.encoded ↔ ∀ id, s.Contains id = t.Contains id := by
  constructor
  · intro h id
    have : s = t := by
      cases s; cases t
      simpa using h
    rw [this]
  · intro h
    have hids : idsOf s = idsOf t := by
      refine sorted_eq_of_mem_iff hs.2.2 ht.2.2 ?_
      intro x
      rw [← contains_iff_mem_idsOf, ← contains_iff_mem_idsOf, h x]
    rw [encoded_eq_flat_of_valid hs, encoded_eq_flat_of_valid ht, hids]

theorem finsetSortedList_eq (l : List Nat) (h : l.Nodup) :
    finsetSortedList l.toFinset = List.insertionSort (· ≤ ·) l.dedup := rfl

theorem finsetSortedList_sorted (s : Finset Nat) :
    (finsetSortedList s).Pairwise (· ≤ ·) := by
  rcases s with ⟨m, hm⟩
  revert hm
  refine Quot.inductionOn m ?_
  intro l hm
  exact List.sorted_insertionSort (· ≤ ·) l

theorem finsetSortedList_nodup (s : Finset Nat) : (finsetSortedList s).Nodup := by
  rcases s with ⟨m, hm⟩
  revert hm
  refine Quot.inductionOn m ?_
  intro l hm
  exact (List.perm_insertionSort (· ≤ ·) l).nodup_iff.mpr hm

theorem mem_finsetSortedList (s : Finset Nat) (x : Nat) :
    x ∈ finsetSortedList s ↔ x ∈ s := by
  rcases s with ⟨m, hm⟩
  revert hm
  refine Quot.inductionOn m ?_
  intro l hm
  exact (List.perm_insertionSort (· ≤ ·) l).mem_iff

theorem finsetSortedList_pairwise_lt (s : Finset Nat) :
    (finsetSortedList s).Pairwise (· < ·) := by
  have h1 := finsetSortedList_sorted s
  have h2 := finsetSortedList_nodup s
  exact (h1.and h2).imp (fun h => Nat.lt_of_le_of_ne h.1 h.2)

theorem dedupSorted_spec : ∀ (s : List Nat) (c : Nat), s.Pairwise (· ≤ ·) → (∀ z ∈ s, c ≤ z) →
    (dedupSorted c s).Pairwise (· < ·)
      ∧ (∀ x, x ∈ dedupSorted c s ↔ (x ∈ s ∧ x ≠ c))
      ∧ (∀ x ∈ dedupSorted c s, c < x) := by
  intro s
  induction s with
  | nil =>
    intro c _ _
    refine ⟨List.Pairwise.nil, ?_, ?_⟩ <;> simp [dedupSorted]
  | cons y ys ih =>
    intro c hp hc
    rw [List.pairwise_cons] at hp
    by_cases hyc : y = c
    · subst hyc
      have hstep : dedupSorted y (y :: ys) = dedupSorted y ys := by
        simp [dedupSorted]
      rcases ih y hp.2 hp.1 with ⟨P, M, G⟩
      rw [hstep]
      refine ⟨P, ?_, G⟩
      intro x
      rw [M x, List.mem_cons]
      constructor
      · rintro ⟨hx, hxc⟩
        exact ⟨Or.inr hx, hxc⟩
      · rintro ⟨hx | hx, hxc⟩
        · exact absurd hx hxc
        · exact ⟨hx, hxc⟩
    · have hcy : c < y := Nat.lt_of_le_of_ne (hc y (List.mem_cons_self y ys)) (Ne.symm hyc)
      have hstep : dedupSorted c (y :: ys) = y :: dedupSorted y ys := by
        simp [dedupSorted, hyc]
      rcases ih y hp.2 hp.1 with ⟨P, M, G⟩
      rw [hstep]
      refine ⟨List.pairwise_cons.mpr ⟨G, P⟩, ?_, ?_⟩
      · intro x
        rw [List.mem_cons, M x, List.mem_cons]
        constructor
        · rintro (rfl | ⟨hx, hxy⟩)
          · exact ⟨Or.inl rfl, hyc⟩
          · refine ⟨Or.inr hx, ?_⟩
            have := hp.1 x hx
            omega
        · rintro ⟨rfl | hx, hxc⟩
          · exact Or.inl rfl
          · by_cases hxy : x = y
            · exact Or.inl hxy
            · exact Or.inr ⟨hx, hxy⟩
      · intro x hx
        rcases List.mem_cons.mp hx with rfl | hx
        · exact hcy
        · exact hcy.trans (G x hx)

theorem makeSet_canonical (l : List Nat) :
    MakeSet l = InstructionSet.mk ((l.toFinset.sort (· ≤ ·)).flatMap toLEBytes) := by
  by_cases hl : l = []
  · subst hl
    simp [MakeSet]
  · have hne : ¬ l.isEmpty := by
      simp [List.isEmpty_iff, hl]
    unfold MakeSet
    rw [if_neg hne]
    show InstructionSet.mk
        ((dedupSorted ((List.insertionSort (· ≤ ·) l).headD 0 + 1)
          (List.insertionSort (· ≤ ·) l)).flatMap toLEBytes) = _
    have hperm := List.perm_insertionSort (· ≤ ·) l
    have hsorted := List.sorted_insertionSort (· ≤ ·) l
    rcases hx : List.insertionSort (· ≤ ·) l with _ | ⟨h, rest⟩
    · exfalso
      rw [hx] at hperm
      exact hl (hperm.symm.eq_nil)
    · rw [hx] at hsorted hperm
      rw [List.sorted_cons] at hsorted
      have hd : (h :: rest).headD 0 = h := rfl
      rw [hd]
      have hstep : dedupSorted (h + 1) (h :: rest) = h :: dedupSorted h rest := by
        have hne' : h ≠ h + 1 := by omega
        simp [dedupSorted, hne']
      rw [hstep]
      rcases dedupSorted_spec rest h hsorted.2 hsorted.1 with ⟨P, M, G⟩
      have heq : h :: dedupSorted h rest = l.toFinset.sort (· ≤ ·) := by
        refine sorted_eq_of_mem_iff (List.pairwise_cons.mpr ⟨G, P⟩)
          (Finset.sort_sorted_lt l.toFinset) ?_
        intro x
        rw [Finset.mem_sort, List.mem_toFinset, ← hperm.mem_iff, List.mem_cons, List.mem_cons,
          M x]
        constructor
        · rintro (rfl | ⟨hx', _⟩)
          · exact Or.inl rfl
          · exact Or.inr hx'
        · rintro (rfl | hx')
          · exact Or.inl rfl
          · by_cases hxy : x = h
            · exact Or.inl hxy
            · exact Or.inr ⟨hx', hxy⟩
      rw [heq]

theorem valid_MakeSet (l : List Nat) (h32 : ∀ x ∈ l, x < 2 ^ 32) : (MakeSet l).valid := by
  rw [makeSet_canonical]
  refine valid_mk_flatMap _ ?_ (Finset.sort_sorted_lt l.toFinset)
  intro x hx
  exact h32 x (List.mem_toFinset.mp (Finset.mem_sort (α := Nat) (· ≤ ·) |>.mp hx))

/-- C9.  Implicit canonical-encoding invariant: every `InstructionSet`
produced by `MakeSet`, `MakeSingletonSet`, `Add`, `Remove`, `Union`,
`Intersect` or `Difference` (from valid inputs and `uint32` ids) has a byte
length that is a multiple of 4 and strictly increasing decoded ids;
consequently `AsMap` (i.e. `decodeInstructionSet`) never fails on such a
set, and byte-equality of encodings coincides with equality of id
membership. -/
theorem C9_canonical_invariant :
    (∀ (l : List Nat), (∀ x ∈ l, x < 2 ^ 32) → (MakeSet l).valid) ∧
      (∀ (id : Nat), id < 2 ^ 32 → (MakeSingletonSet id).valid) ∧
      (∀ (s : InstructionSet) (id : Nat), s.valid → id < 2 ^ 32 → (s.Add id).valid) ∧
      (∀ (s : InstructionSet) (id : Nat), s.valid → (s.Remove id).valid) ∧
      (∀ (a b : InstructionSet), a.valid → b.valid → (Union a b).valid) ∧
      (∀ (a b : InstructionSet), a.valid → (Intersect a b).valid) ∧
      (∀ (a b : InstructionSet), a.valid → (Difference a b).valid) ∧
      (∀ (s : InstructionSet), s.valid → (decodeInstructionSet s.encoded).isSome = true) ∧
      (∀ (s t : InstructionSet), s.valid → t.valid →
        (s.encoded = t.encoded ↔ ∀ id, s.Contains id = t.Contains id)) :=
  ⟨valid_MakeSet, valid_makeSingletonSet, fun _ id hv h => valid_Add hv id h,
    fun _ id hv => valid_Remove hv id, fun _ _ ha hb => valid_Union ha hb,
    fun _ b ha => valid_Intersect b ha, fun _ b ha => valid_Difference b ha,
    fun _ hv => decode_isSome_of_valid hv, fun _ _ hs ht => encoding_ext hs ht⟩

/-- Witness for C9 at concrete sets. -/
theorem C9_witness : (MakeSet [3, 1, 2]).valid ∧ (MakeSingletonSet 5).valid :=
  ⟨C9_canonical_invariant.1 [3, 1, 2] (by decide), C9_canonical_invariant.2.1 5 (by decide)⟩

/-- C8.  Canonical set construction: `MakeSet` is invariant under
permutations of its input, duplicates collapse, `MakeSet([2,1,2,1])` prints
as `"{1 2}"`, and `MakeSet([])` is the empty set. -/
theorem C8_makeSet_canonical :
    (∀ (l l' : List Nat), l.Perm l' → MakeSet l = MakeSet l') ∧
      (∀ (x : Nat) (xs : List Nat), MakeSet (x :: x :: xs) = MakeSet (x :: xs)) ∧
      (MakeSet [2, 1, 2, 1]).toStr = "\x7b1 2\x7d" ∧ MakeSet [] = InstructionSet.mk [] := by
  refine ⟨?_, ?_, by decide, rfl⟩
  · intro l l' hperm
    rw [makeSet_canonical, makeSet_canonical, List.toFinset_eq_of_perm l l' hperm]
  · intro x xs
    rw [makeSet_canonical, makeSet_canonical, List.toFinset_cons, List.toFinset_cons,
      Finset.insert_idem]

/-- Witness for C8 at a concrete permutation. -/
theorem C8_witness : ([1, 2] : List Nat).Perm [2, 1] ∧ MakeSet [1, 2] = MakeSet [2, 1] :=
  ⟨by decide, C8_makeSet_canonical.1 [1, 2] [2, 1] (by decide)⟩

/-- C5 counterexample.  The byte sequence encoding the id list `[1, 0]` has
length a multiple of 4, but `encodeInstructionSet(decodeInstructionSet(b))`
sorts the ids and returns the encoding of `[0, 1]`, which differs from
`b`. -/
theorem C5_counterexample :
    ([1, 0, 0, 0, 0, 0, 0, 0] : List Nat).length % 4 = 0 ∧
      (decodeInstructionSet [1, 0, 0, 0, 0, 0, 0, 0]).map encodeInstructionSet
        = some [0, 0, 0, 0, 1, 0, 0, 0] ∧
      ([0, 0, 0, 0, 1, 0, 0, 0] : List Nat) ≠ [1, 0, 0, 0, 0, 0, 0, 0] :=
  ⟨by decide, by decide, by decide⟩

/-- C5 as amended.  The round trip
`encodeInstructionSet(decodeInstructionSet(b)) = b` holds for every byte
sequence `b` whose length is a multiple of 4, whose entries are bytes, and
whose decoded ids are strictly increasing — i.e. exactly for the canonical
encodings actually produced by the set type. -/
theorem C5_amended (b : List Nat) (hb : ∀ x ∈ b, x < 256) (h4 : b.length % 4 = 0)
    (hs : (idsOf (InstructionSet.mk b)).Pairwise (· < ·)) :
    (decodeInstructionSet b).map encodeInstructionSet = some b := by
  have hv : (InstructionSet.mk b).valid := ⟨hb, h4, hs⟩
  have hdec : decodeInstructionSet b = some ((idsOf (InstructionSet.mk b)).toFinset) := by
    unfold decodeInstructionSet
    rw [if_neg (by omega)]
    rfl
  rw [hdec, Option.map_some']
  have hlist : finsetSortedList ((idsOf (InstructionSet.mk b)).toFinset)
      = idsOf (InstructionSet.mk b) := by
    refine sorted_eq_of_mem_iff (finsetSortedList_pairwise_lt _) hs ?_
    intro x
    rw [mem_finsetSortedList, List.mem_toFinset]
  unfold encodeInstructionSet
  rw [hlist, ← encoded_eq_flat_of_valid hv]

/-- Witness for C5 as amended at the canonical encoding of `[1, 2]`. -/
theorem C5_amended_witness :
    (decodeInstructionSet [1, 0, 0, 0, 2, 0, 0, 0]).map encodeInstructionSet
      = some [1, 0, 0, 0, 2, 0, 0, 0] :=
  C5_amended [1, 0, 0, 0, 2, 0, 0, 0] (by decide) (by decide) (by decide)

/-! ### The worklist heap operations permute the worklist (C6) -/

theorem cons_set_perm {α : Type} :
    ∀ (xs : List α) (j : Nat) (x b : α), xs.get? j = some b →
      (b :: xs.set j x).Perm (x :: xs) := by
  intro xs
  induction xs with
  | nil => intro j x b h; simp at h
  | cons y ys ih =>
    intro j x b h
    cases j with
    | zero =>
      simp only [List.get?_cons_zero, Option.some.injEq] at h
      subst h
      exact List.Perm.swap x y ys
    | succ j =>
      simp only [List.get?_cons_succ] at h
      have h1 : (b :: y :: ys.set j x).Perm (y :: b :: ys.set j x) := List.Perm.swap y b _
      have h2 : (y :: b :: ys.set j x).Perm (y :: x :: ys) := List.Perm.cons y (ih j x b h)
      have h3 : (y :: x :: ys).Perm (x :: y :: ys) := List.Perm.swap x y ys
      show (b :: y :: ys.set j x).Perm (x :: y :: ys)
      exact (h1.trans h2).trans h3

theorem set_set_perm {α : Type} :
    ∀ (l : List α) (i j : Nat) (a b : α), l.get? i = some a → l.get? j = some b →
      ((l.set i b).set j a).Perm l := by
  intro l
  induction l with
  | nil => intro i j a b hi _; simp at hi
  | cons x xs ih =>
    intro i j a b hi hj
    cases i with
    | zero =>
      simp only [List.get?_cons_zero, Option.some.injEq] at hi
      subst hi
      cases j with
      | zero =>
        simp only [List.get?_cons_zero, Option.some.injEq] at hj
        subst hj
        simp
      | succ j =>
        simp only [List.get?_cons_succ] at hj
        show (b :: xs.set j x).Perm (x :: xs)
        exact cons_set_perm xs j x b hj
    | succ i =>
      simp only [List.get?_cons_succ] at hi
      cases j with
      | zero =>
        simp only [List.get?_cons_zero, Option.some.injEq] at hj
        subst hj
        show (a :: xs.set i x).Perm (x :: xs)
        exact cons_set_perm xs i x a hi
      | succ j =>
        simp only [List.get?_cons_succ] at hj
        show (x :: (xs.set i b).set j a).Perm (x :: xs)
        exact List.Perm.cons x (ih i j a b hi hj)

theorem lswap_perm (l : List Candidate) (i j : Nat) : (lswap l i j).Perm l := by
  unfold lswap
  rcases hi : l.get? i with _ | a
  · exact List.Perm.refl l
  · rcases hj : l.get? j with _ | b
    · exact List.Perm.refl l
    · exact set_set_perm l i j a b hi hj

theorem siftUp_perm : ∀ (f : Nat) (l : List Candidate) (j : Nat), (siftUp f l j).Perm l := by
  intro f
  induction f with
  | zero => intro l j; exact List.Perm.refl l
  | succ f ih =>
    intro l j
    simp only [siftUp]
    split_ifs with h1 h2
    · exact List.Perm.refl l
    · exact (ih _ _).trans (lswap_perm l _ j)
    · exact List.Perm.refl l

theorem siftDown_perm : ∀ (f : Nat) (l : List Candidate) (i n : Nat),
    (siftDown f l i n).Perm l := by
  intro f
  induction f with
  | zero => intro l i n; exact List.Perm.refl l
  | succ f ih =>
    intro l i n
    simp only [siftDown]
    split_ifs <;> first
      | exact List.Perm.refl l
      | exact (ih _ _ _).trans (lswap_perm l i _)

theorem heapPush_perm (wl : List Candidate) (c : Candidate) :
    (heapPush wl c).Perm (c :: wl) := by
  unfold heapPush
  exact (siftUp_perm _ _ _).trans (List.perm_append_singleton c wl)

theorem take_getD_last {α : Type} [Inhabited α] :
    ∀ (l : List α), l ≠ [] → l = l.take (l.length - 1) ++ [l.getD (l.length - 1) default] := by
  intro l
  induction l with
  | nil => intro h; exact absurd rfl h
  | cons x xs ih =>
    intro _
    cases xs with
    | nil => rfl
    | cons y ys =>
      have hne : (y :: ys) ≠ [] := by simp
      have ihy := ih hne
      have hl : (x :: y :: ys).length - 1 = (y :: ys).length - 1 + 1 := by simp
      rw [hl]
      conv_lhs => rw [ihy]
      rfl

theorem heapPop_perm (wl : List Candidate) (hne : wl ≠ []) :
    wl.Perm ((heapPop wl).1 :: (heapPop wl).2) := by
  have hl : (siftDown wl.length (lswap wl 0 (wl.length - 1)) 0 (wl.length - 1)).Perm wl :=
    (siftDown_perm _ _ _ _).trans (lswap_perm wl 0 (wl.length - 1))
  set l := siftDown wl.length (lswap wl 0 (wl.length - 1)) 0 (wl.length - 1) with hdef
  have hlen : l.length = wl.length := hl.length_eq
  have hne' : l ≠ [] := by
    intro hc
    refine hne (List.length_eq_zero.mp ?_)
    rw [← hlen, hc]
    rfl
  show wl.Perm (l.getD (wl.length - 1) default :: l.take (wl.length - 1))
  have h2 : (l.take (l.length - 1) ++ [l.getD (l.length - 1) default]).Perm
      (l.getD (l.length - 1) default :: l.take (l.length - 1)) :=
    List.perm_append_singleton _ _
  have h3 : l.Perm (l.getD (l.length - 1) default :: l.take (l.length - 1)) := by
    conv_lhs => rw [take_getD_last l hne']
    exact h2
  rw [hlen] at h3
  exact hl.symm.trans h3

/-! ### The termination measure decreases (C6) -/

theorem wlMeasure_perm (N budget : Nat) {wl wl' : List Candidate} (h : wl.Perm wl') :
    wlMeasure N budget wl = wlMeasure N budget wl' :=
  (h.map (candWeight N budget)).sum_eq

theorem candWeight_pos (N budget : Nat) (c : Candidate) : 1 ≤ candWeight N budget c :=
  Nat.one_le_pow _ _ (by omega)

theorem wlMeasure_cons (N budget : Nat) (c : Candidate) (wl : List Candidate) :
    wlMeasure N budget (c :: wl) = candWeight N budget c + wlMeasure N budget wl := by
  simp [wlMeasure]

theorem wlMeasure_heapPush (N budget : Nat) (wl : List Candidate) (c : Candidate) :
    wlMeasure N budget (heapPush wl c) = candWeight N budget c + wlMeasure N budget wl := by
  rw [wlMeasure_perm N budget (heapPush_perm wl c), wlMeasure_cons]

theorem wlMeasure_heapPop (N budget : Nat) (wl : List Candidate) (hne : wl ≠ []) :
    wlMeasure N budget wl
      = candWeight N budget (heapPop wl).1 + wlMeasure N budget (heapPop wl).2 := by
  rw [wlMeasure_perm N budget (heapPop_perm wl hne), wlMeasure_cons]

theorem unionMerge_nil_right : ∀ (f : Nat) (a : List Nat), 1 ≤ f → unionMerge f a [] = a := by
  intro f a hf
  match f, a with
  | 0, _ => omega
  | _ + 1, [] => rfl
  | _ + 1, _ :: _ => rfl

theorem length_unionMerge_singleton : ∀ (f : Nat) (a : List Nat) (y : Nat),
    a.length + 1 ≤ f → y ∉ a → (unionMerge f a [y]).length = a.length + 1 := by
  intro f
  induction f with
  | zero => intro a y hf _; omega
  | succ f ih =>
    intro a y hf hy
    match a with
    | [] => rfl
    | x :: xs =>
      unfold unionMerge
      split_ifs with h1 h2
      · have hyxs : y ∉ xs := fun hc => hy (List.mem_cons_of_mem x hc)
        have := ih xs y (by simp at hf ⊢; omega) hyxs
        simp only [List.length_cons, this]
      · exact absurd (h2 ▸ List.mem_cons_self x xs) hy
      · rw [unionMerge_nil_right f (x :: xs) (by simp at hf; omega)]
        simp

theorem contains_false_not_mem {s : InstructionSet} {id : Nat}
    (hc : s.Contains id = false) : id ∉ idsOf s := by
  intro hmem
  rw [← contains_iff_mem_idsOf] at hmem
  rw [hc] at hmem
  exact Bool.false_ne_true hmem

theorem size_Add {s : InstructionSet} (id : Nat) (h32 : id < 2 ^ 32)
    (hc : s.Contains id = false) : (s.Add id).Size = s.Size + 1 := by
  unfold InstructionSet.Add
  rw [hc]
  simp only [Bool.false_eq_true, if_false]
  unfold Union
  by_cases hemp : s.encoded.length == 0
  · rw [if_pos hemp]
    have h0 : s.Size = 0 := by
      unfold InstructionSet.Size
      have : s.encoded.length = 0 := by simpa using hemp
      omega
    rw [h0]
    show (toLEBytes id).length / 4 = 0 + 1
    simp [toLEBytes]
  · rw [if_neg hemp]
    have hnemp : ¬ (MakeSingletonSet id).encoded.length == 0 := by
      show ¬ (toLEBytes id).length == 0
      simp [toLEBytes]
    rw [if_neg hnemp]
    have hsing : idsOf (MakeSingletonSet id) = [id] := by
      have h1 : MakeSingletonSet id = InstructionSet.mk ([id].flatMap toLEBytes) := rfl
      rw [h1, idsOf_mk_flatMap [id] (by simpa using h32)]
    rw [size_mk_flatMap]
    rw [hsing]
    have hs1 : (MakeSingletonSet id).Size = 1 := by
      show (toLEBytes id).length / 4 = 1
      simp [toLEBytes]
    have hfuel : (idsOf s).length + 1 ≤ s.Size + (MakeSingletonSet id).Size := by
      rw [length_idsOf, hs1]
    rw [length_unionMerge_singleton _ _ _ hfuel (contains_false_not_mem hc), length_idsOf]

theorem wlMeasure_expandLoop (N budget : Nat) (all : List InstructionInfo)
    (cur : InstructionSet) (max_id : Nat) (value best : Int) :
    ∀ (instrs : List InstructionInfo) (wl : List Candidate),
      (∀ i ∈ instrs, i.instruction < 2 ^ 32) →
      wlMeasure N budget (expandLoop all cur max_id value best budget instrs wl)
        ≤ wlMeasure N budget wl + instrs.length * (N + 1) ^ (budget - cur.Size) := by
  intro instrs
  induction instrs with
  | nil => intro wl _; simp [expandLoop]
  | cons inst rest ih =>
    intro wl hid
    have hidr : ∀ i ∈ rest, i.instruction < 2 ^ 32 :=
      fun i hi => hid i (List.mem_cons_of_mem inst hi)
    have hmono : wlMeasure N budget wl + rest.length * (N + 1) ^ (budget - cur.Size)
        ≤ wlMeasure N budget wl + (inst :: rest).length * (N + 1) ^ (budget - cur.Size) := by
      refine Nat.add_le_add_left ?_ _
      refine Nat.mul_le_mul_right _ ?_
      simp
    simp only [expandLoop]
    split_ifs with h1 h2 h3 h4
    · exact (ih wl hidr).trans hmono
    · exact (ih wl hidr).trans hmono
    · exact (ih wl hidr).trans hmono
    · have hc : cur.Contains inst.instruction = false := by
        cases hcc : cur.Contains inst.instruction with
        | false => rfl
        | true => exact absurd hcc h2
      have hsz : (cur.Add inst.instruction).Size = cur.Size + 1 :=
        size_Add inst.instruction (hid inst (List.mem_cons_self inst rest)) hc
      have hw : candWeight N budget
          ⟨cur.Add inst.instruction, value,
            value + (inst.savings : Int) + getUpperBoundForExtraSaving
              (cur.Add inst.instruction) all budget⟩
          = (N + 1) ^ (budget - cur.Size) := by
        unfold candWeight
        rw [hsz]
        congr 1
        omega
      refine le_trans (ih _ hidr) ?_
      rw [wlMeasure_heapPush, hw]
      have hrw : (inst :: rest).length * (N + 1) ^ (budget - cur.Size)
          = rest.length * (N + 1) ^ (budget - cur.Size) + (N + 1) ^ (budget - cur.Size) := by
        simp [Nat.succ_mul]
      omega
    · refine Nat.le_trans (Nat.le_add_right _ _) hmono

theorem bbLoop_reaches_some (blocks : List BlockStructure)
    (instructions : List InstructionInfo) (budget workers : Nat)
    (hid : ∀ i ∈ instructions, i.instruction < 2 ^ 32) :
    ∀ (fuel : Nat) (wl : List Candidate) (bs : InstructionSet) (bv : Int),
      wlMeasure instructions.length budget wl < fuel →
      ∃ r, bbLoop blocks instructions budget workers fuel wl bs bv = some r := by
  intro fuel
  induction fuel with
  | zero => intro wl bs bv h; omega
  | succ fuel ih =>
    intro wl bs bv hm
    by_cases hempty : wl.isEmpty = true
    · exact ⟨(bs, bv), by simp [bbLoop, hempty]⟩
    · have hne : wl ≠ [] := by simpa [List.isEmpty_iff] using hempty
      have hpop := wlMeasure_heapPop instructions.length budget wl hne
      have hwpos := candWeight_pos instructions.length budget (heapPop wl).1
      simp only [bbLoop]
      rw [if_neg hempty]
      by_cases hprune : (heapPop wl).1.maximum_potential < bv
      · rw [if_pos hprune]
        exact ih _ _ _ (by omega)
      · rw [if_neg hprune]
        by_cases hsz : (heapPop wl).1.instruction_set.Size < budget
        · rw [if_pos hsz]
          refine ih _ _ _ ?_
          rw [hpop] at hm
          have hwc : candWeight instructions.length budget (heapPop wl).1
              = instructions.length * (instructions.length + 1)
                    ^ (budget - (heapPop wl).1.instruction_set.Size)
                  + (instructions.length + 1)
                    ^ (budget - (heapPop wl).1.instruction_set.Size) := by
            unfold candWeight
            rw [show budget + 1 - (heapPop wl).1.instruction_set.Size
                = (budget - (heapPop wl).1.instruction_set.Size) + 1 by omega, pow_succ]
            ring
          have hXpos : 1 ≤ (instructions.length + 1)
              ^ (budget - (heapPop wl).1.instruction_set.Size) :=
            Nat.one_le_pow _ _ (by omega)
          refine lt_of_le_of_lt (wlMeasure_expandLoop _ _ _ _ _ _ _ _ _ hid) ?_
          rw [hwc] at hm
          omega
        · rw [if_neg hsz]
          exact ih _ _ _ (by omega)

/-- C6.  Termination of the branch-and-bound search: for every selection
problem (with `uint32` instruction ids, as in the source) and any worker
count, some finite fuel makes the frontier loop of `runBranchAndBound`
return a result: every pushed extension strictly increases the candidate
set's size, sizes are effectively bounded by the budget, and the worklist
measure strictly decreases at every iteration. -/
theorem C6_branchAndBound_terminates (prob : SelectionProblem) (workers : Nat)
    (hid : ∀ i ∈ prob.instructions, i.instruction < 2 ^ 32) :
    ∃ (fuel : Nat) (res : InstructionSet × Int),
      runBranchAndBound prob workers fuel = some res := by
  have hid' : ∀ i ∈ sortInstructions prob.instructions, i.instruction < 2 ^ 32 := by
    intro i hi
    refine hid i ?_
    exact (List.perm_insertionSort _ _).mem_iff.mp hi
  obtain ⟨r, hr⟩ := bbLoop_reaches_some (sortBlocks prob.block_structure)
    (sortInstructions prob.instructions) prob.budget workers hid'
    (wlMeasure (sortInstructions prob.instructions).length prob.budget
        [⟨⟨[]⟩, 0, getUpperBoundForExtraSaving ⟨[]⟩ (sortInstructions prob.instructions)
          prob.budget⟩] + 1)
    [⟨⟨[]⟩, 0, getUpperBoundForExtraSaving ⟨[]⟩ (sortInstructions prob.instructions) prob.budget⟩]
    ((sortInstructions prob.instructions).take prob.budget |>.foldl
      (fun s i => s.Add i.instruction) ⟨[]⟩)
    (getSavings (sortBlocks prob.block_structure)
      ((sortInstructions prob.instructions).take prob.budget |>.foldl
        (fun s i => s.Add i.instruction) ⟨[]⟩) workers)
    (Nat.lt_succ_self _)
  refine ⟨wlMeasure (sortInstructions prob.instructions).length prob.budget
      [⟨⟨[]⟩, 0, getUpperBoundForExtraSaving ⟨[]⟩ (sortInstructions prob.instructions)
        prob.budget⟩] + 1, r, ?_⟩
  unfold runBranchAndBound
  exact hr

/-- Witness for C6 at a concrete two-instruction problem. -/
theorem C6_witness :
    ∃ (fuel : Nat) (res : InstructionSet × Int),
      runBranchAndBound ⟨[⟨1, 2⟩, ⟨2, 1⟩], [], [], 2⟩ 1 fuel = some res :=
  C6_branchAndBound_terminates ⟨[⟨1, 2⟩, ⟨2, 1⟩], [], [], 2⟩ 1 (by decide)

end Sisel
